import Mathlib

/-!
Verification development for the `rust-matrix-state` room-state engine.

The Rust sources `src/auth.rs`, `src/state.rs` and `src/main.rs` are shallowly
embedded below.  JSON values are modelled by the inductive `Value` (numbers are
split into integers and non-integral floats, the latter represented exactly as
rationals); machine integers are modelled by `Int`/`Nat` (64-bit overflow is
not modelled: none of the verified properties exercises it).  Rust panics are
modelled by `Option`/explicit failure constructors; `Result<(), Error>` is
modelled by `Except`.  Hash-map iteration order, which is unspecified in Rust,
is fixed to the underlying association-list order; all verified statements are
robust against that choice except for the text of error messages, which may
name a different offending entry when several exist.
-/

namespace RMS

/-- JSON values as produced by `serde_json`.  A JSON number lexed as an
integer becomes `vInt`; a number lexed with a fraction or exponent becomes
`vFloat` (held exactly as a rational, standing for the parsed `f64`). -/
inductive Value where
  | vNull : Value
  | vBool : Bool → Value
  | vInt : Int → Value
  | vFloat : Rat → Value
  | vStr : String → Value
  | vArr : List Value → Value
  | vObj : List (String × Value) → Value

/-- First-match lookup in an association list with string keys, the model of
`serde_json::Map::get` / `HashMap::get`. -/
def lookupStr {α : Type} (l : List (String × α)) (k : String) : Option α :=
  (l.find? (fun p => p.1 == k)).map (·.2)

/-- Model of `Value::as_str`. -/
def Value.asStr : Value → Option String
  | .vStr s => some s
  | _ => none

/-- Model of `Value::as_object`. -/
def Value.asObj : Value → Option (List (String × Value))
  | .vObj l => some l
  | _ => none

/-- Model of `Value::get` on a possibly-non-object value (`None` unless the
value is an object containing the key). -/
def Value.getKey : Value → String → Option Value
  | .vObj l, k => lookupStr l k
  | _, _ => none

/-- Decimal digit value of a character, if it is a digit. -/
def decDigit? (c : Char) : Option Nat :=
  if c.isDigit then some (c.toNat - 48) else none

/-- Value of a non-empty all-digit character list, the digit part of
`i64::from_str`. -/
def digitsVal (cs : List Char) : Option Nat :=
  if cs.isEmpty then none
  else cs.foldlM (fun acc c => (decDigit? c).map (fun d => acc * 10 + d)) 0

/-- Model of `i64::from_str` (used by `str::parse::<i64>`): an optional sign
followed by at least one digit and nothing else.  Overflow of the 64-bit
range is not modelled. -/
def parse_i64 (s : String) : Option Int :=
  match s.data with
  | '+' :: rest => (digitsVal rest).map Int.ofNat
  | '-' :: rest => (digitsVal rest).map (fun n => -(n : Int))
  | l => (digitsVal l).map Int.ofNat

/-- Truncation of a rational toward zero, the behaviour of Rust's
`f64 as i64` cast on in-range values. -/
def truncRat (q : Rat) : Int :=
  q.num.tdiv q.den

/-- Model of `auth.rs::as_int`: `as_i64` first (integer numbers), then
`as_f64` truncated toward zero (other numbers), then string parsing; parse
failure and non-numeric values yield `none`. -/
def as_int (value : Value) : Option Int :=
  match value with
  | .vInt n => some n
  | .vFloat q => some (truncRat q)
  | .vStr s => parse_i64 s
  | _ => none

/-- Model of `auth.rs::Event`.  `prev_events` keeps only the event ids (the
auxiliary tuple component is ignored by the program), `content` is the JSON
object as an association list. -/
structure Event where
  sender : String
  etype : String
  state_key : Option String
  room_id : String
  event_id : String
  prev_events : List String
  redacts : Option String
  depth : Nat
  content : List (String × Value)

/-- Characters after the first colon, or `none` when there is no colon. -/
def domainTail : List Char → Option (List Char)
  | [] => none
  | c :: cs => if c = ':' then some cs else domainTail cs

/-- Model of `auth.rs::get_domain_from_id`: everything after the first `:`
(`splitn(2, ":").nth(1)`), failing when no colon is present. -/
def get_domain_from_id (s : String) : Option String :=
  (domainTail s.data).map (fun l => ⟨l⟩)

/-- Modelled from the spec: `src/state_map.rs` is absent from the sources, so
the State Map container is taken from the spec, section 4.1: a mapping keyed
by `(type, state_key)` with unique keys, here an association list. -/
abbrev StateMap (α : Type) : Type :=
  List ((String × String) × α)

/-- Modelled from the spec: `get(type, state_key)` on a State Map. -/
def StateMap.get {α : Type} (m : StateMap α) (t s : String) : Option α :=
  (m.find? (fun e => e.1.1 == t && e.1.2 == s)).map (·.2)

/-- Modelled from the spec: `insert` overwrites the entry for the key if
present, otherwise adds it. -/
def StateMap.insert {α : Type} (m : StateMap α) (t s : String) (v : α) : StateMap α :=
  match m with
  | [] => [((t, s), v)]
  | e :: rest =>
    if e.1 = (t, s) then ((t, s), v) :: rest else e :: StateMap.insert rest t s v

/-- Modelled from the spec: `contains_key`. -/
def StateMap.contains_key {α : Type} (m : StateMap α) (t s : String) : Bool :=
  (StateMap.get m t s).isSome

/-- Modelled from the spec: `add_or_remove(t, s, v)` — if an entry with that
key exists with a different value, replace it and return the previous value;
if absent, insert and return none; if equal, no change and return none. -/
def StateMap.add_or_remove {α : Type} [DecidableEq α] (m : StateMap α) (t s : String)
    (v : α) : StateMap α × Option α :=
  match StateMap.get m t s with
  | some w => if w = v then (m, none) else (StateMap.insert m t s v, some w)
  | none => (StateMap.insert m t s v, none)

/-- Modelled from the spec: `values()`. -/
def StateMap.values {α : Type} (m : StateMap α) : List α :=
  m.map (·.2)

/-- Modelled from the spec: `iter_members()` — entries with type
`m.room.member`, as `(state_key, value)` pairs. -/
def StateMap.iter_members {α : Type} (m : StateMap α) : List (String × α) :=
  m.filterMap (fun e => if e.1.1 = "m.room.member" then some (e.1.2, e.2) else none)

/-- Modelled from the spec: `iter_join_rules()` — entries with type
`m.room.join_rules`, as `(state_key, value)` pairs. -/
def StateMap.iter_join_rules {α : Type} (m : StateMap α) : List (String × α) :=
  m.filterMap (fun e => if e.1.1 = "m.room.join_rules" then some (e.1.2, e.2) else none)

/-- Modelled from the spec: `iter_non_members()` — all entries whose type is
neither member nor join-rules nor the power-levels well-known key. -/
def StateMap.iter_non_members {α : Type} (m : StateMap α) : List ((String × String) × α) :=
  m.filter (fun e =>
    !(e.1.1 == "m.room.member" || e.1.1 == "m.room.join_rules" ||
      (e.1.1 == "m.room.power_levels" && e.1.2 == "")))

/-- Modelled from the spec: `get_well_known(PowerLevels)`. -/
def StateMap.get_well_known {α : Type} (m : StateMap α) : Option α :=
  StateMap.get m "m.room.power_levels" ""

/-- Modelled from the spec: `insert_well_known(PowerLevels, v)`. -/
def StateMap.insert_well_known {α : Type} (m : StateMap α) (v : α) : StateMap α :=
  StateMap.insert m "m.room.power_levels" "" v

/-! ### SHA-1

`state.rs::order_events` sorts by the lowercase hex SHA-1 digest of the
event id (`Sha1::from(&e.event_id).hexdigest()`); the hash is implemented
here over `Nat` with explicit reduction mod `2^32`. -/

/-- Reduction mod `2^32`. -/
def m32 (n : Nat) : Nat := n % 4294967296

/-- Left rotation of a 32-bit word by `k` places. -/
def rotl32 (k n : Nat) : Nat := m32 (n * 2 ^ k + n / 2 ^ (32 - k))

/-- Bitwise complement of a 32-bit word. -/
def bnot32 (n : Nat) : Nat := 4294967295 - n

/-- UTF-8 encoding of one character, as byte values. -/
def utf8EncodeCharNat (c : Char) : List Nat :=
  let n := c.toNat
  if n < 128 then [n]
  else if n < 2048 then [192 + n / 64, 128 + n % 64]
  else if n < 65536 then [224 + n / 4096, 128 + n / 64 % 64, 128 + n % 64]
  else [240 + n / 262144, 128 + n / 4096 % 64, 128 + n / 64 % 64, 128 + n % 64]

/-- UTF-8 bytes of a string. -/
def strBytes (s : String) : List Nat :=
  s.data.foldr (fun c acc => utf8EncodeCharNat c ++ acc) []

/-- Big-endian 8-byte encoding. -/
def be64 (n : Nat) : List Nat :=
  [n / 2 ^ 56 % 256, n / 2 ^ 48 % 256, n / 2 ^ 40 % 256, n / 2 ^ 32 % 256,
   n / 2 ^ 24 % 256, n / 2 ^ 16 % 256, n / 2 ^ 8 % 256, n % 256]

/-- SHA-1 padding: a `0x80` byte, zeros to 56 mod 64, then the bit length. -/
def sha1Pad (msg : List Nat) : List Nat :=
  let r := (msg.length + 1) % 64
  msg ++ 128 :: (List.replicate ((120 - r) % 64) 0 ++ be64 (msg.length * 8))

/-- Big-endian 32-bit word from four bytes. -/
def word32 (a b c d : Nat) : Nat := ((a * 256 + b) * 256 + c) * 256 + d

/-- Group bytes into big-endian 32-bit words. -/
def toWords : List Nat → List Nat
  | a :: b :: c :: d :: rest => word32 a b c d :: toWords rest
  | _ => []

/-- Extend the 16 message words by `n` further schedule words. -/
def extendW : Nat → List Nat → List Nat
  | 0, w => w
  | n + 1, w =>
    let L := w.length
    let x := ((w.getD (L - 3) 0) ^^^ (w.getD (L - 8) 0)) ^^^
      ((w.getD (L - 14) 0) ^^^ (w.getD (L - 16) 0))
    extendW n (w ++ [rotl32 1 x])

/-- Round function of SHA-1. -/
def sha1F (i b c d : Nat) : Nat :=
  if i < 20 then (b &&& c) ||| (bnot32 b &&& d)
  else if i < 40 then (b ^^^ c) ^^^ d
  else if i < 60 then ((b &&& c) ||| (b &&& d)) ||| (c &&& d)
  else (b ^^^ c) ^^^ d

/-- Round constants of SHA-1. -/
def sha1K (i : Nat) : Nat :=
  if i < 20 then 1518500249
  else if i < 40 then 1859775393
  else if i < 60 then 2400959708
  else 3395469782

/-- One SHA-1 round step on the five-word state. -/
def sha1Round (st : Nat × Nat × Nat × Nat × Nat) (iw : Nat × Nat) :
    Nat × Nat × Nat × Nat × Nat :=
  let (a, b, c, d, e) := st
  let temp := m32 (rotl32 5 a + sha1F iw.1 b c d + e + sha1K iw.1 + iw.2)
  (temp, a, rotl32 30 b, c, d)

/-- Process one 64-byte block. -/
def sha1Block (h : Nat × Nat × Nat × Nat × Nat) (block : List Nat) :
    Nat × Nat × Nat × Nat × Nat :=
  let w := extendW 64 (toWords block)
  let (h0, h1, h2, h3, h4) := h
  let (a, b, c, d, e) := w.enum.foldl sha1Round h
  (m32 (h0 + a), m32 (h1 + b), m32 (h2 + c), m32 (h3 + d), m32 (h4 + e))

/-- Split a byte list into 64-byte chunks; the fuel dominates the number of
chunks (one chunk consumes 64 ≥ 1 bytes). -/
def chunks64 : Nat → List Nat → List (List Nat)
  | 0, _ => []
  | _, [] => []
  | f + 1, l => l.take 64 :: chunks64 f (l.drop 64)

/-- Lowercase hex digit. -/
def hexDigit (n : Nat) : Char :=
  Char.ofNat (if n < 10 then 48 + n else 87 + n)

/-- Lowercase hex of a 32-bit word, eight digits. -/
def hex32 (n : Nat) : List Char :=
  (List.range 8).map (fun i => hexDigit (n / 2 ^ (4 * (7 - i)) % 16))

/-- Lowercase hex SHA-1 digest of the UTF-8 bytes of a string, the model of
`Sha1::from(s).hexdigest()`. -/
def sha1_hexdigest (s : String) : String :=
  let padded := sha1Pad (strBytes s)
  let (a, b, c, d, e) := (chunks64 padded.length padded).foldl sha1Block
    (1732584193, 4023233417, 2562383102, 271733878, 3285377520)
  ⟨hex32 a ++ (hex32 b ++ (hex32 c ++ (hex32 d ++ hex32 e)))⟩

/-! ### The Authorizer (`auth.rs`)

`check` returns `Result<(), Error>` in the source; panics (association-map
indexing on an absent key) abort the process and are modelled by a separate
failure constructor, so that callers treating `Err` as a boolean (the
resolver) can be modelled faithfully. -/

/-- Failure modes of the authorization predicate: `denial` models
`Err(reason)`, `panicked` models a Rust panic. -/
inductive AuthFail where
  | denial : String → AuthFail
  | panicked : String → AuthFail
deriving DecidableEq

/-- Result type of the authorization predicate. -/
abbrev AuthRes : Type := Except AuthFail Unit

/-- Model of `auth.rs::get_user_power_level`. -/
def get_user_power_level (user : String) (auth_events : StateMap Event) : Int :=
  match StateMap.get auth_events "m.room.power_levels" "" with
  | some pev =>
    let dflt := ((lookupStr pev.content "users_default").bind as_int).getD 0
    (((lookupStr pev.content "users").bind Value.asObj).bind
      (fun u => (lookupStr u user).bind as_int)).getD dflt
  | none =>
    match (StateMap.get auth_events "m.room.create" "").bind
        (fun ev => (lookupStr ev.content "creator").bind Value.asStr) with
    | some creator => if creator = user then 100 else 0
    | none => 0

/-- Model of `auth.rs::get_named_level`. -/
def get_named_level (name : String) (auth_events : StateMap Event) : Option Int :=
  (StateMap.get auth_events "m.room.power_levels" "").bind
    (fun ev => (lookupStr ev.content name).bind as_int)

/-- Model of `auth.rs::get_send_level`. -/
def get_send_level (etype : String) (is_state : Bool) (auth_events : StateMap Event) : Int :=
  match StateMap.get auth_events "m.room.power_levels" "" with
  | some pev =>
    let dflt :=
      if is_state then ((lookupStr pev.content "state_default").bind as_int).getD 50
      else ((lookupStr pev.content "events_default").bind as_int).getD 0
    (((lookupStr pev.content "events").bind Value.asObj).bind
      (fun u => (lookupStr u etype).bind as_int)).getD dflt
  | none => 0

/-- Model of `auth.rs::check_user_in_room`. -/
def check_user_in_room (event : Event) (auth_events : StateMap Event) : AuthRes :=
  let m := ((StateMap.get auth_events "m.room.member" event.sender).bind
    (fun e => lookupStr e.content "membership")).bind Value.asStr
  if m = some "join" then .ok () else .error (.denial "user not in room")

/-- Model of `auth.rs::check_can_send_event`. -/
def check_can_send_event (event : Event) (auth_events : StateMap Event) : AuthRes :=
  let send_level := get_send_level event.etype event.state_key.isSome auth_events
  let user_level := get_user_power_level event.sender auth_events
  if user_level < send_level then
    .error (.denial "user doesn't have power to send event")
  else
    match event.state_key with
    | some state_key =>
      if state_key.startsWith "@" ∧ state_key ≠ event.sender then
        .error (.denial "cannot have user state_key")
      else .ok ()
    | none => .ok ()

/-- Model of `auth.rs::check_third_party_invite` (the top-level dispatch arm
for `m.room.third_party_invite` events). -/
def check_third_party_invite (event : Event) (auth_events : StateMap Event) : AuthRes :=
  let user_level := get_user_power_level event.sender auth_events
  let invite_level := (get_named_level "invite" auth_events).getD 0
  if user_level < invite_level then
    .error (.denial "user power level is less than invite level")
  else .ok ()

/-- Deserialization of `ThridPartyInviteSigned`: an object with string fields
`mixd`, `sender` and `token` (the source struct misspells `mxid`). -/
def parseSigned (v : Value) : Option (String × String × String) := do
  let obj ← v.asObj
  let mixd ← (lookupStr obj "mixd").bind Value.asStr
  let sender ← (lookupStr obj "sender").bind Value.asStr
  let token ← (lookupStr obj "token").bind Value.asStr
  pure (mixd, sender, token)

/-- Model of `auth.rs::verify_third_party_invite`. -/
def verify_third_party_invite (event : Event) (auth_events : StateMap Event) : AuthRes :=
  match lookupStr event.content "third_party_invite" with
  | none => .error (.denial "not third party invite")
  | some third_party =>
    match third_party.getKey "signed" with
    | none => .error (.denial "invalid third party invite")
    | some signed_value =>
      match parseSigned signed_value with
      | none => .error (.denial "invalid third party invite")
      | some (mixd, sender, token) =>
        let _ := sender
        match StateMap.get auth_events "m.room.third_party_invite" token with
        | none => .error (.denial "no third party invite event")
        | some third_party_invite =>
          if third_party_invite.sender ≠ event.sender then
            .error (.denial "third party invite and event sender don't match")
          else if some mixd ≠ event.state_key then
            .error (.denial "state_key and signed mxid do not match")
          else .ok ()

/-- Membership string of `auth_state[(m.room.member, user)]`, as read in
`check_membership`: the content is indexed (panicking when the key is
absent), then `as_str` failure is the denial `missing membership key`. -/
def member_membership (auth_events : StateMap Event) (user : String) :
    Except AuthFail (Option String) :=
  match StateMap.get auth_events "m.room.member" user with
  | none => pure none
  | some ev =>
    match lookupStr ev.content "membership" with
    | none => throw (.panicked "no entry found for key")
    | some v =>
      match v.asStr with
      | none => throw (.denial "missing membership key")
      | some m => pure (some m)

/-- Model of `auth.rs::check_membership`. -/
def check_membership (event : Event) (auth_events : StateMap Event) : AuthRes := do
  let mval ← match lookupStr event.content "membership" with
    | some v => pure v
    | none => throw (AuthFail.panicked "no entry found for key")
  let membership ← match mval.asStr with
    | some m => pure m
    | none => throw (AuthFail.denial "missing membership key")
  let state_key ← match event.state_key with
    | some sk => pure sk
    | none => throw (AuthFail.denial "membership event must be state event")
  -- special creator bypass
  if membership = "join" ∧ event.prev_events.length = 1 then
    match StateMap.get auth_events "m.room.create" "" with
    | some creation_event =>
      if event.prev_events.headD "" = creation_event.event_id then
        let creator := (lookupStr creation_event.content "creator").bind Value.asStr
        if creator = some state_key then return ()
        else pure ()
      else pure ()
    | none => pure ()
  else pure ()
  let cm ← member_membership auth_events event.sender
  let caller_in_room := cm = some "join"
  let caller_invited := cm = some "invite"
  let tm ← member_membership auth_events state_key
  let target_in_room := tm = some "join"
  let target_banned := tm = some "ban"
  if membership = "invite" ∧ (lookupStr event.content "third_party_invite").isSome then
    verify_third_party_invite event auth_events
    if target_banned then throw (AuthFail.denial "target is banned")
    return ()
  let join_rule := (((StateMap.get auth_events "m.room.join_rules" "").bind
    (fun ev => lookupStr ev.content "join_rule")).bind Value.asStr).getD "invite"
  let user_level := get_user_power_level event.sender auth_events
  let target_level := get_user_power_level state_key auth_events
  let ban_level := (get_named_level "ban" auth_events).getD 50
  if membership ≠ "join" then
    if caller_invited ∧ membership = "leave" ∧ state_key = event.sender then
      return ()
    if ¬ caller_in_room then throw (AuthFail.denial "sender not in room")
  match membership with
  | "invite" =>
    if target_banned then throw (AuthFail.denial "target is banned")
    if target_in_room then throw (AuthFail.denial "target already in room")
    if user_level < (get_named_level "invite" auth_events).getD 0 then
      throw (AuthFail.denial "user power level is less than invite level")
  | "join" =>
    if target_banned then throw (AuthFail.denial "user is banned")
    if event.sender ≠ state_key then
      throw (AuthFail.denial "sender and state key do not match")
    match join_rule with
    | "public" => pure ()
    | "invite" =>
      if ¬ caller_in_room ∧ ¬ caller_invited then
        throw (AuthFail.denial "user not invited")
    | _ => throw (AuthFail.denial "unknown join rule")
  | "leave" =>
    if target_banned ∧ user_level < ban_level then
      throw (AuthFail.denial "cannot unban user")
    if state_key ≠ event.sender then
      let kick_level := (get_named_level "kick" auth_events).getD 50
      if user_level < kick_level ∨ user_level ≤ target_level then
        throw (AuthFail.denial "cannot kick user")
  | "ban" =>
    if user_level < ban_level ∨ user_level ≤ target_level then
      throw (AuthFail.denial "cannot ban user")
  | _ => throw (AuthFail.denial "unknown membership")

/-- Model of the `NumberLike` deserializer (`visit_u64`/`visit_i64` accept
integers, `visit_str` parses via `i64::from_str`; there is no float visitor,
so floats fail, and a failing string parse is a hard deserialization error). -/
def parseNumberLike (v : Value) : Option Int :=
  match v with
  | .vInt n => some n
  | .vStr s => parse_i64 s
  | _ => none

/-- Deserialization of `HashMap<String, NumberLike>` from a JSON value. -/
def parsePowerMap (v : Value) : Option (List (String × Int)) :=
  match v with
  | .vObj l => l.mapM (fun p => (parseNumberLike p.2).map (fun n => (p.1, n)))
  | _ => none

/-- Read an optional `HashMap<String, NumberLike>` field of a content object:
absent means empty, a failing parse is the denial `invalid power level
event`. -/
def parsePowerMapField (content : List (String × Value)) (key : String) :
    Except AuthFail (List (String × Int)) :=
  match lookupStr content key with
  | none => pure []
  | some v =>
    match parsePowerMap v with
    | some l => pure l
    | none => throw (.denial "invalid power level event")

/-- Whether an optional old level fails the `old > user_level` test. -/
def levelGT (o : Option Int) (user_level : Int) : Bool :=
  match o with
  | some l => l > user_level
  | none => false

/-- Whether an optional old level fails the `old >= user_level` test. -/
def levelGE (o : Option Int) (user_level : Int) : Bool :=
  match o with
  | some l => l ≥ user_level
  | none => false

/-- The named scalars compared by `check_power_levels`. -/
def levels_to_check : List String :=
  ["users_default", "events_default", "state_default", "ban", "kick", "redact", "invite"]

/-- The named-scalar loop of `check_power_levels`: for each changed name,
both the old and the new value (where present) must not exceed
`user_level`. -/
def check_named_levels (current_content event_content : List (String × Value))
    (user_level : Int) : List String → AuthRes
  | [] => .ok ()
  | name :: rest =>
    let old_level := (lookupStr current_content name).bind as_int
    let new_level := (lookupStr event_content name).bind as_int
    if old_level = new_level then
      check_named_levels current_content event_content user_level rest
    else if levelGT old_level user_level then
      .error (.denial ("old level higher for " ++ name ++ " greater than users"))
    else if levelGT new_level user_level then
      .error (.denial ("new level higher for " ++ name ++ " greater than users"))
    else
      check_named_levels current_content event_content user_level rest

/-- The `users` sub-map loop of `check_power_levels`: for each changed user,
an old entry at or above `user_level` fails (note `≥`), a new entry above
`user_level` fails (strict `>`). -/
def check_users_levels (old_users new_users : List (String × Int))
    (user_level : Int) : List String → AuthRes
  | [] => .ok ()
  | user :: rest =>
    let old_level := lookupStr old_users user
    let new_level := lookupStr new_users user
    if old_level = new_level then
      check_users_levels old_users new_users user_level rest
    else if levelGE old_level user_level then
      .error (.denial ("old level higher for " ++ user ++ " greater than users"))
    else if levelGT new_level user_level then
      .error (.denial ("new level higher for " ++ user ++ " greater than users"))
    else
      check_users_levels old_users new_users user_level rest

/-- The `events` sub-map loop of `check_power_levels`: strict `>` on both the
old and the new side (both failure messages read `new level higher` in the
source). -/
def check_events_levels (old_events new_events : List (String × Int))
    (user_level : Int) : List String → AuthRes
  | [] => .ok ()
  | etype :: rest =>
    let old_level := lookupStr old_events etype
    let new_level := lookupStr new_events etype
    if old_level = new_level then
      check_events_levels old_events new_events user_level rest
    else if levelGT old_level user_level then
      .error (.denial ("new level higher for " ++ etype ++ " greater than users"))
    else if levelGT new_level user_level then
      .error (.denial ("new level higher for " ++ etype ++ " greater than users"))
    else
      check_events_levels old_events new_events user_level rest

/-- The key set `old ∪ new` iterated by the sub-map loops (a `HashSet` in the
source; its iteration order is unspecified there and fixed here). -/
def keysUnion (old_map new_map : List (String × Int)) : List String :=
  ((old_map.map (·.1)) ++ (new_map.map (·.1))).dedup

/-- Model of `auth.rs::check_power_levels`.  Note the old/new swap on the
`events` sub-map in the source: `old_events` is read from the candidate
event and `new_events` from the current power-levels event. -/
def check_power_levels (event : Event) (auth_events : StateMap Event) : AuthRes := do
  match StateMap.get auth_events "m.room.power_levels" "" with
  | none => return ()
  | some current_power =>
    let user_level := get_user_power_level event.sender auth_events
    check_named_levels current_power.content event.content user_level levels_to_check
    let old_users ← parsePowerMapField current_power.content "users"
    let new_users ← parsePowerMapField event.content "users"
    check_users_levels old_users new_users user_level (keysUnion old_users new_users)
    let old_events ← parsePowerMapField event.content "events"
    let new_events ← parsePowerMapField current_power.content "events"
    check_events_levels old_events new_events user_level (keysUnion old_events new_events)

/-- Model of `auth.rs::check_redaction`. -/
def check_redaction (event : Event) (auth_events : StateMap Event) : AuthRes := do
  let user_level := get_user_power_level event.sender auth_events
  let redact_level := (get_named_level "redact" auth_events).getD 50
  if user_level ≥ redact_level then return ()
  match event.redacts with
  | some redacts =>
    let rd ← match get_domain_from_id redacts with
      | some d => pure d
      | none => throw (AuthFail.denial "invalid ID")
    let sd ← match get_domain_from_id event.sender with
      | some d => pure d
      | none => throw (AuthFail.denial "invalid ID")
    if rd = sd then return ()
    throw (AuthFail.denial "cannot redact")
  | none => throw (AuthFail.denial "cannot redact")

/-- Model of `auth.rs::check`, the top-level authorization predicate. -/
def check (event : Event) (auth_events : StateMap Event) : AuthRes := do
  let sender_domain ← match get_domain_from_id event.sender with
    | some d => pure d
    | none => throw (AuthFail.denial "invalid ID")
  if event.etype = "m.room.create" then
    let room_domain ← match get_domain_from_id event.room_id with
      | some d => pure d
      | none => throw (AuthFail.denial "invalid ID")
    if room_domain ≠ sender_domain then
      throw (AuthFail.denial "sender and room domains do not match")
    return ()
  if ¬ StateMap.contains_key auth_events "m.room.create" "" then
    throw (AuthFail.denial "No create event")
  if event.etype = "m.room.aliases" then
    let state_key ← match event.state_key with
      | some s => pure s
      | none => throw (AuthFail.denial "alias event must be state event")
    if state_key ≠ sender_domain then
      throw (AuthFail.denial "alias state key and sender domain do not match")
  if event.etype = "m.room.member" then
    check_membership event auth_events
    return ()
  check_user_in_room event auth_events
  if event.etype = "m.room.third_party_invite" then
    check_third_party_invite event auth_events
    return ()
  check_can_send_event event auth_events
  if event.etype = "m.room.power_levels" then
    check_power_levels event auth_events
  if event.etype = "m.room.redaction" then
    check_redaction event auth_events

/-- Model of `auth.rs::auth_types_for_event`; `none` models the panic of
`content["membership"]` on a member event without that key. -/
def auth_types_for_event (event : Event) : Option (List (String × String)) :=
  if event.etype = "m.room.create" then some []
  else
    let base := [("m.room.create", ""), ("m.room.power_levels", ""),
      ("m.room.member", event.sender)]
    if event.etype = "m.room.member" then do
      let mv ← lookupStr event.content "membership"
      let membership := (mv.asStr).getD ""
      let l1 := if membership = "join" ∨ membership = "invite" then
        base ++ [("m.room.join_rules", "")] else base
      let l2 := match event.state_key with
        | some sk => l1 ++ [("m.room.member", sk)]
        | none => l1
      pure l2
    else some base

/-! ### The State Resolver (`state.rs`) -/

/-- Generic first-match association-list lookup (`HashMap::get`). -/
def lookupKey {κ α : Type} [BEq κ] (l : List (κ × α)) (k : κ) : Option α :=
  (l.find? (fun p => p.1 == k)).map (·.2)

/-- Replace-or-append insertion into an association list (`HashMap::insert`). -/
def insertKey {κ α : Type} [BEq κ] (l : List (κ × α)) (k : κ) (v : α) : List (κ × α) :=
  match l with
  | [] => [(k, v)]
  | e :: rest => if e.1 == k then (k, v) :: rest else e :: insertKey rest k v

/-- Removal from an association list (`HashMap::remove`). -/
def eraseKey {κ α : Type} [BEq κ] (l : List (κ × α)) (k : κ) : List (κ × α) :=
  match l with
  | [] => []
  | e :: rest => if e.1 == k then rest else e :: eraseKey rest k

/-- The event lookup table `event_map : event_id → Event`. -/
abbrev EventMap : Type := List (String × Event)

/-- The sort key of `state.rs::order_events`:
`(-(depth as i64), sha1(event_id).hexdigest())`, compared lexicographically
(Rust tuple `Ord`). -/
def order_le (a b : Event) : Bool :=
  decide (-(a.depth : Int) < -(b.depth : Int) ∨
    (-(a.depth : Int) = -(b.depth : Int) ∧
      sha1_hexdigest a.event_id ≤ sha1_hexdigest b.event_id))

/-- Model of `state.rs::order_events` (`sort_by_key` is a stable ascending
sort, as is `mergeSort`). -/
def order_events (events : List Event) : List Event :=
  events.mergeSort order_le

/-- The loop of `resolve_auth_events`: the source mutates one copy of
`auth_events`, but every mutation overwrites the same `key` slot, so passing
the updated map along is equivalent.  A panic inside `check` is `none`. -/
def rae_loop (key : String × String) (auth_events : StateMap Event)
    (prev_event : Event) : List Event → Option Event
  | [] => some prev_event
  | event :: rest =>
    let new_auth_events := StateMap.insert auth_events key.1 key.2 prev_event
    match check event new_auth_events with
    | .error (.denial _) => some prev_event
    | .error (.panicked _) => none
    | .ok _ => rae_loop key new_auth_events event rest

/-- Model of `state.rs::resolve_auth_events`; `none` covers the `events[0]`
panic on an empty vector and panics escaping `check`. -/
def resolve_auth_events (key : String × String) (events : List Event)
    (auth_events : StateMap Event) : Option Event :=
  match (order_events events).reverse with
  | [] => none
  | first :: rest => rae_loop key auth_events first rest

/-- The search loop of `resolve_normal_events`: the first event accepted by
`check`, `some none` when none is, `none` on a panic inside `check`. -/
def rne_loop (auth_events : StateMap Event) : List Event → Option (Option Event)
  | [] => some none
  | event :: rest =>
    match check event auth_events with
    | .ok _ => some (some event)
    | .error (.denial _) => rne_loop auth_events rest
    | .error (.panicked _) => none

/-- Model of `state.rs::resolve_normal_events`; when no event authorizes the
result is `events.last().unwrap()`, whose panic on an empty vector is
`none`. -/
def resolve_normal_events (events : List Event) (auth_events : StateMap Event) :
    Option Event :=
  let ordered := order_events events
  match rne_loop auth_events ordered with
  | none => none
  | some (some e) => some e
  | some none => ordered.getLast?

/-- The conflicted map: slot → accumulated candidate events. -/
abbrev Conflicted : Type := StateMap (List Event)

/-- One entry of one subsequent state set, processed by the conflict-split
loop of `resolve_state`; `none` models the `&event_map[eid]` panics. -/
def add_split (em : EventMap) (acc : StateMap String × Conflicted)
    (entry : (String × String) × String) : Option (StateMap String × Conflicted) :=
  let (unconflicted, conflicted) := acc
  let ((t, s), eid) := entry
  match StateMap.get conflicted t s with
  | some v =>
    if v.any (fun ev => ev.event_id == eid) then some (unconflicted, conflicted)
    else
      match lookupStr em eid with
      | none => none
      | some ev => some (unconflicted, StateMap.insert conflicted t s (v ++ [ev]))
  | none =>
    match StateMap.add_or_remove unconflicted t s eid with
    | (u2, some eid_prev) =>
      match lookupStr em eid, lookupStr em eid_prev with
      | some ev, some evp => some (u2, StateMap.insert conflicted t s [ev, evp])
      | _, _ => none
    | (u2, none) => some (u2, conflicted)

/-- The conflict-split double loop of `resolve_state`: subsequent maps are
folded entry by entry over the unconflicted/conflicted pair. -/
def split_maps (em : EventMap) (first : StateMap String)
    (rest : List (StateMap String)) : Option (StateMap String × Conflicted) :=
  rest.foldlM (fun acc m => m.foldlM (add_split em) acc) (first, ([] : Conflicted))

/-- The union of `auth_types_for_event` over all conflicted events (a
`HashSet` in the source; order fixed to traversal order here). -/
def auth_types_union (conflicted : Conflicted) : Option (List (String × String)) :=
  match (StateMap.values conflicted).mapM
      (fun events => events.mapM auth_types_for_event) with
  | none => none
  | some lists => some lists.flatten.flatten.dedup

/-- Construction of the `auth_events` snapshot from the unconflicted map. -/
def build_auth_events (em : EventMap) (unconflicted : StateMap String)
    (types : List (String × String)) : Option (StateMap Event) :=
  types.foldlM (fun acc ts =>
    match StateMap.get unconflicted ts.1 ts.2 with
    | some evid =>
      match lookupStr em evid with
      | none => none
      | some ev => some (StateMap.insert acc ts.1 ts.2 ev)
    | none => some acc) ([] : StateMap Event)

/-- The power-levels stage of `resolve_state`: when the well-known
power-levels slot is conflicted, resolve it and update both the resolved map
and the auth-events snapshot. -/
def pl_stage (conflicted : Conflicted) (acc : StateMap String × StateMap Event) :
    Option (StateMap String × StateMap Event) :=
  match StateMap.get_well_known conflicted with
  | some events =>
    match resolve_auth_events ("m.room.power_levels", "") events acc.2 with
    | none => none
    | some ev =>
      some (StateMap.insert_well_known acc.1 ev.event_id,
            StateMap.insert_well_known acc.2 ev)
  | none => some acc

/-- One conflicted join-rules slot, resolved against the stage-entry
snapshot `join_auth_events`. -/
def jr_step (join_auth_events : StateMap Event)
    (acc : StateMap String × StateMap Event) (p : String × List Event) :
    Option (StateMap String × StateMap Event) :=
  match resolve_auth_events ("m.room.join_rules", p.1) p.2 join_auth_events with
  | none => none
  | some ev =>
    some (StateMap.insert acc.1 "m.room.join_rules" p.1 ev.event_id,
          StateMap.insert acc.2 "m.room.join_rules" p.1 ev)

/-- One conflicted member slot, resolved against the stage-entry snapshot
`member_auth_events`. -/
def member_step (member_auth_events : StateMap Event)
    (acc : StateMap String × StateMap Event) (p : String × List Event) :
    Option (StateMap String × StateMap Event) :=
  match resolve_auth_events ("m.room.member", p.1) p.2 member_auth_events with
  | none => none
  | some ev =>
    some (StateMap.insert acc.1 "m.room.member" p.1 ev.event_id,
          StateMap.insert acc.2 "m.room.member" p.1 ev)

/-- One remaining conflicted slot: skipped when already present in the
resolved map, otherwise resolved by `resolve_normal_events`. -/
def nm_step (auth_events : StateMap Event) (acc : StateMap String)
    (p : (String × String) × List Event) : Option (StateMap String) :=
  if StateMap.contains_key acc p.1.1 p.1.2 then some acc
  else
    match resolve_normal_events p.2 auth_events with
    | none => none
    | some ev => some (StateMap.insert acc p.1.1 p.1.2 ev.event_id)

/-- Model of `state.rs::resolve_state`. -/
def resolve_state (state_sets : List (StateMap String)) (em : EventMap) :
    Option (StateMap String) :=
  match state_sets with
  | [] => some []
  | first :: rest =>
    match split_maps em first rest with
    | none => none
    | some (unconflicted, conflicted) =>
      match auth_types_union conflicted with
      | none => none
      | some types =>
        match build_auth_events em unconflicted types with
        | none => none
        | some auth_events0 =>
          match pl_stage conflicted (unconflicted, auth_events0) with
          | none => none
          | some acc1 =>
            match (StateMap.iter_join_rules conflicted).foldlM (jr_step acc1.2) acc1 with
            | none => none
            | some acc2 =>
              match (StateMap.iter_members conflicted).foldlM
                  (member_step acc2.2) acc2 with
              | none => none
              | some acc3 =>
                (StateMap.iter_non_members conflicted).foldlM (nm_step acc3.2) acc3.1

/-! ### The DAG Engine (`main.rs`) -/

/-- State of the Kahn traversal in `get_ordered_fast`.  `ordered` is kept
most-recent-first (the source pushes to the end and reverses at the end, so
this list is already the final order); the head of `zeroes` is the top of the
source's `Vec`. -/
structure KahnState where
  ordered : List String
  zeroes : List String
  adjacents : List (String × Nat)
deriving DecidableEq

/-- Decrement of one predecessor's child count: on reaching zero the entry is
removed and the predecessor enqueued.  (The count is positive whenever an
unpopped child exists, so the `Nat` subtraction never truncates in the
verified runs.) -/
def process_prev (acc : List (String × Nat) × List String) (p : String) :
    List (String × Nat) × List String :=
  let (adj, zeroes) := acc
  match lookupStr adj p with
  | some i =>
    let a := i - 1
    if a = 0 then (eraseKey adj p, p :: zeroes) else (insertKey adj p a, zeroes)
  | none => (adj, zeroes)

/-- The traversal loop of `get_ordered_fast`; `none` models the
`event_map[event_id]` panic.  The fuel chosen by `get_ordered_fast` dominates
the number of iterations on every input. -/
def kahn_loop (em : EventMap) : Nat → KahnState → Option KahnState
  | 0, st => some st
  | fuel + 1, st =>
    match st.zeroes with
    | [] => some st
    | event_id :: rest =>
      match lookupStr em event_id with
      | none => none
      | some ev =>
        let (adj, zeroes) := ev.prev_events.foldl process_prev (st.adjacents, rest)
        kahn_loop em fuel ⟨event_id :: st.ordered, zeroes, adj⟩

/-- Model of `main.rs::get_ordered_fast`.  The `parents` table is consulted
by the source only through `parents.get(key).map(HashSet::len).unwrap_or(0)`,
so it is modelled by that count function.  The final length test models
`assert_eq!(ordered.len(), event_map.len())`, whose panic is `none`. -/
def get_ordered_fast (em : EventMap) (extremities : List String)
    (parents_count : String → Nat) : Option (List String) :=
  match kahn_loop em (em.length + extremities.length)
      ⟨[], extremities, em.map (fun p => (p.1, parents_count p.1))⟩ with
  | none => none
  | some final =>
    if final.ordered.length = em.length then some final.ordered else none

/-- State of the DAG engine's walk: the state-group counter and the two maps
`event_id → state_group` and `state_group → state map`. -/
structure EngineState where
  next_sg : Nat
  event_to_sg : List (String × Nat)
  sg_to_state : List (Nat × StateMap String)
deriving DecidableEq

/-- The `filter_map` over `prev_events` in the multi-predecessor branch of
the walk: a predecessor with no recorded state group is dropped (the
commented-out diagnostic), a recorded state group with no recorded state map
is the explicit `panic!` (`none`). -/
def collect_prev_states (st : EngineState) : List String →
    Option (List (StateMap String))
  | [] => some []
  | pid :: rest =>
    match lookupStr st.event_to_sg pid with
    | some sg =>
      match lookupKey st.sg_to_state sg with
      | some s => (collect_prev_states st rest).map (s :: ·)
      | none => none
    | none => collect_prev_states st rest

/-- The predecessor-state computation of the walk (the `state` block of
`main.rs` before the state-event insertion), returning the `current_sg`
reuse candidate and the pre-event state.  In the single-predecessor branch
both lookups are `HashMap` indexing, whose panics are `none`. -/
def compute_prev_state (em : EventMap) (st : EngineState) (event : Event) :
    Option (Option Nat × StateMap String) :=
  if event.prev_events.length > 1 then
    match collect_prev_states st event.prev_events with
    | none => none
    | some state_sets =>
      match resolve_state state_sets em with
      | none => none
      | some resolved => some (none, resolved)
  else if event.prev_events.length = 1 then
    match lookupStr st.event_to_sg (event.prev_events.headD "") with
    | none => none
    | some s =>
      match lookupKey st.sg_to_state s with
      | none => none
      | some stmap => some (some s, stmap)
  else
    some (none, [])

/-- One iteration of the DAG engine's state walk (`main.rs`, the body of the
`for eid in &ordered` loop). -/
def walk_step (em : EventMap) (st : EngineState) (eid : String) :
    Option EngineState :=
  match lookupStr em eid with
  | none => none
  | some event =>
    match compute_prev_state em st event with
    | none => none
    | some (current_sg0, state0) =>
      let (current_sg, state) :=
        match event.state_key with
        | some state_key => (none, StateMap.insert state0 event.etype state_key eid)
        | none => (current_sg0, state0)
      match current_sg with
      | some sg =>
        some { st with event_to_sg := insertKey st.event_to_sg eid sg }
      | none =>
        let sg := st.next_sg + 1
        some { next_sg := sg,
               event_to_sg := insertKey st.event_to_sg eid sg,
               sg_to_state := insertKey st.sg_to_state sg state }

/-- The DAG engine's state walk over the topologically ordered event ids. -/
def walk (em : EventMap) (ordered : List String) : Option EngineState :=
  ordered.foldlM (walk_step em) ⟨0, [], []⟩

/-! ### Association-list lemmas -/

theorem lookupKey_nil {κ α : Type} [BEq κ] (k : κ) :
    lookupKey ([] : List (κ × α)) k = none := rfl

theorem lookupKey_cons {κ α : Type} [BEq κ] [LawfulBEq κ] [DecidableEq κ]
    (e : κ × α) (rest : List (κ × α)) (k : κ) :
    lookupKey (e :: rest) k = if e.1 = k then some e.2 else lookupKey rest k := by
  by_cases h : e.1 = k
  · simp [lookupKey, List.find?_cons_of_pos, h]
  · simp [lookupKey, List.find?_cons_of_neg, h]

theorem insertKey_nil {κ α : Type} [BEq κ] (k : κ) (v : α) :
    insertKey ([] : List (κ × α)) k v = [(k, v)] := rfl

theorem insertKey_cons {κ α : Type} [BEq κ] [LawfulBEq κ] [DecidableEq κ]
    (e : κ × α) (rest : List (κ × α)) (k : κ) (v : α) :
    insertKey (e :: rest) k v =
      if e.1 = k then (k, v) :: rest else e :: insertKey rest k v := by
  by_cases h : e.1 = k <;> simp [insertKey, h]

theorem eraseKey_nil {κ α : Type} [BEq κ] (k : κ) :
    eraseKey ([] : List (κ × α)) k = [] := rfl

theorem eraseKey_cons {κ α : Type} [BEq κ] [LawfulBEq κ] [DecidableEq κ]
    (e : κ × α) (rest : List (κ × α)) (k : κ) :
    eraseKey (e :: rest) k = if e.1 = k then rest else e :: eraseKey rest k := by
  by_cases h : e.1 = k <;> simp [eraseKey, h]

theorem lookupKey_insertKey_self {κ α : Type} [BEq κ] [LawfulBEq κ] [DecidableEq κ]
    (l : List (κ × α)) (k : κ) (v : α) : lookupKey (insertKey l k v) k = some v := by
  induction l with
  | nil => simp [insertKey_nil, lookupKey_cons]
  | cons e rest ih =>
    rw [insertKey_cons]
    by_cases h : e.1 = k
    · simp [h, lookupKey_cons]
    · simp [h, lookupKey_cons, ih]

theorem lookupKey_insertKey_ne {κ α : Type} [BEq κ] [LawfulBEq κ] [DecidableEq κ]
    (l : List (κ × α)) (k k' : κ) (v : α) (h : k' ≠ k) :
    lookupKey (insertKey l k v) k' = lookupKey l k' := by
  induction l with
  | nil => simp [insertKey_nil, lookupKey_cons, lookupKey_nil, Ne.symm h]
  | cons e rest ih =>
    rw [insertKey_cons]
    by_cases he : e.1 = k
    · rw [if_pos he, lookupKey_cons, lookupKey_cons, he,
        if_neg (fun hc => h hc.symm), if_neg (Ne.symm h)]
    · rw [if_neg he, lookupKey_cons, lookupKey_cons]
      by_cases he' : e.1 = k'
      · rw [if_pos he', if_pos he']
      · rw [if_neg he', if_neg he', ih]

theorem lookupKey_mem {κ α : Type} [BEq κ] [LawfulBEq κ] [DecidableEq κ]
    {l : List (κ × α)} {k : κ} {v : α} (h : lookupKey l k = some v) : (k, v) ∈ l := by
  induction l with
  | nil => simp [lookupKey_nil] at h
  | cons e rest ih =>
    rw [lookupKey_cons] at h
    by_cases he : e.1 = k
    · rw [if_pos he] at h
      have hv : e.2 = v := Option.some.inj h
      have : e = (k, v) := Prod.ext he hv
      rw [← this]
      exact List.mem_cons_self e rest
    · simp only [he, if_neg, not_false_iff] at h
      exact List.mem_cons_of_mem _ (ih h)

theorem lookupKey_mem_keys {κ α : Type} [BEq κ] [LawfulBEq κ] [DecidableEq κ]
    {l : List (κ × α)} {k : κ} {v : α} (h : lookupKey l k = some v) :
    k ∈ l.map (·.1) :=
  List.mem_map.2 ⟨(k, v), lookupKey_mem h, rfl⟩

theorem lookupKey_isSome_of_mem_keys {κ α : Type} [BEq κ] [LawfulBEq κ] [DecidableEq κ]
    {l : List (κ × α)} {k : κ} (h : k ∈ l.map (·.1)) :
    ∃ v, lookupKey l k = some v := by
  induction l with
  | nil => simp at h
  | cons e rest ih =>
    by_cases he : e.1 = k
    · exact ⟨e.2, by simp [lookupKey_cons, he]⟩
    · simp only [List.map_cons, List.mem_cons] at h
      rcases h with h | h
      · exact absurd h.symm he
      · simpa [lookupKey_cons, he] using ih h

theorem keys_insertKey_subset {κ α : Type} [BEq κ] [LawfulBEq κ] [DecidableEq κ]
    (l : List (κ × α)) (k : κ) (v : α) {a : κ}
    (h : a ∈ (insertKey l k v).map (·.1)) : a ∈ l.map (·.1) ∨ a = k := by
  induction l with
  | nil => simpa [insertKey_nil] using h
  | cons e rest ih =>
    rw [insertKey_cons] at h
    by_cases he : e.1 = k
    · simp only [he, if_pos, List.map_cons, List.mem_cons] at h
      rcases h with h | h
      · exact Or.inr h
      · exact Or.inl (List.mem_cons_of_mem _ h)
    · simp only [he, if_neg, not_false_iff, List.map_cons, List.mem_cons] at h
      rcases h with h | h
      · exact Or.inl (List.mem_cons.2 (Or.inl h))
      · rcases ih h with h | h
        · exact Or.inl (List.mem_cons_of_mem _ h)
        · exact Or.inr h

/-- Bridge between the State Map operations (which compare the two key
components separately, as the source's typed interface does) and the generic
association-list operations. -/
theorem StateMap.get_cons {α : Type} (e : (String × String) × α) (rest : StateMap α)
    (t s : String) :
    StateMap.get (e :: rest) t s =
      if e.1 = (t, s) then some e.2 else StateMap.get rest t s := by
  by_cases h : e.1 = (t, s)
  · have h1 : (e.1.1 == t && e.1.2 == s) = true := by
      simp [Bool.and_eq_true, beq_iff_eq, show e.1.1 = t from by rw [h],
        show e.1.2 = s from by rw [h]]
    simp [StateMap.get, List.find?_cons_of_pos _ h1, h]
  · have h1 : (e.1.1 == t && e.1.2 == s) = false := by
      rw [Bool.eq_false_iff]
      intro hc
      simp only [Bool.and_eq_true, beq_iff_eq] at hc
      exact h (Prod.ext hc.1 hc.2)
    simp [StateMap.get, List.find?_cons, h1, h]

theorem StateMap.get_eq_lookupKey {α : Type} (m : StateMap α) (t s : String) :
    StateMap.get m t s = lookupKey m (t, s) := by
  induction m with
  | nil => rfl
  | cons e rest ih => rw [StateMap.get_cons, lookupKey_cons, ih]

theorem StateMap.insert_eq_insertKey {α : Type} (m : StateMap α) (t s : String) (v : α) :
    StateMap.insert m t s v = insertKey m (t, s) v := by
  induction m with
  | nil => rfl
  | cons e rest ih =>
    by_cases h : e.1 = (t, s)
    · simp [StateMap.insert, insertKey, h]
    · simp [StateMap.insert, insertKey, h, ih]

theorem StateMap.get_insert_self {α : Type} (m : StateMap α) (t s : String) (v : α) :
    StateMap.get (StateMap.insert m t s v) t s = some v := by
  rw [StateMap.insert_eq_insertKey, StateMap.get_eq_lookupKey]
  exact lookupKey_insertKey_self m (t, s) v

theorem StateMap.get_insert_ne {α : Type} (m : StateMap α) (t s t' s' : String) (v : α)
    (h : (t', s') ≠ (t, s)) :
    StateMap.get (StateMap.insert m t s v) t' s' = StateMap.get m t' s' := by
  rw [StateMap.insert_eq_insertKey, StateMap.get_eq_lookupKey, StateMap.get_eq_lookupKey]
  exact lookupKey_insertKey_ne m (t, s) (t', s') v h

/-! ### Claim C4 — numeric coercion of power-level scalars -/

/-- The create event of the concrete C4 room. -/
def c4_create : Event :=
  ⟨"@a:x", "m.room.create", some "", "!r:x", "$create4", [], none, 1,
    [("creator", .vStr "@a:x")]⟩

/-- The current power-levels event of the concrete C4 room (sender `@a:x`
has level 50). -/
def c4_pl_current : Event :=
  ⟨"@a:x", "m.room.power_levels", some "", "!r:x", "$pl4", [], none, 1,
    [("users", .vObj [("@a:x", .vInt 50)])]⟩

/-- The C4 auth state. -/
def c4_auth : StateMap Event :=
  [(("m.room.create", ""), c4_create), (("m.room.power_levels", ""), c4_pl_current)]

/-- A power-levels change writing `@c:x`'s entry as the JSON integer 5. -/
def c4_event_int : Event :=
  ⟨"@a:x", "m.room.power_levels", some "", "!r:x", "$pl4i", ["$pl4"], none, 2,
    [("users", .vObj [("@a:x", .vInt 50), ("@c:x", .vInt 5)])]⟩

/-- The same power-levels change with the JSON float 5.7 instead. -/
def c4_event_float : Event :=
  ⟨"@a:x", "m.room.power_levels", some "", "!r:x", "$pl4f", ["$pl4"], none, 2,
    [("users", .vObj [("@a:x", .vInt 50), ("@c:x", .vFloat (mkRat 57 10))])]⟩

/-- C4, counterexample: the Authorizer does not interpret a float power
scalar as its truncation everywhere — in the power-levels change check the
`users` sub-map is parsed through `NumberLike`, which has no float visitor,
so replacing the integer 5 by the float 5.7 turns an accepted event into the
denial `invalid power level event` instead of behaving like integer 5. -/
theorem c4_counterexample :
    check_power_levels c4_event_int c4_auth = .ok () ∧
    check_power_levels c4_event_float c4_auth =
      .error (.denial "invalid power level event") :=
  ⟨rfl, rfl⟩

/-- C4, amended: scalars read through `as_int` (named levels, and the
`users`/`events` maps as read by `get_user_power_level`/`get_send_level`)
interpret integer 5, float 5.7 and string "5" all as the integer 5, with
unparseable strings treated as absent; but the `users`/`events` sub-maps of
the power-levels change check are deserialized via `NumberLike`, which
accepts integers and integer strings, rejects floats, and makes unparseable
strings a hard error rather than an absent value. -/
theorem c4_numeric_coercion :
    (as_int (.vInt 5) = some 5 ∧ as_int (.vFloat (mkRat 57 10)) = some 5 ∧
      as_int (.vStr "5") = some 5 ∧ as_int (.vStr "five") = none) ∧
    (parseNumberLike (.vInt 5) = some 5 ∧ parseNumberLike (.vStr "5") = some 5 ∧
      parseNumberLike (.vFloat (mkRat 57 10)) = none ∧
      parseNumberLike (.vStr "five") = none) := by
  refine ⟨⟨rfl, ?_, rfl, rfl⟩, ⟨rfl, rfl, ?_, rfl⟩⟩ <;> decide

/-! ### Claim C6 — users sub-map own-entry freeze -/

/-- The candidate power-levels event of the C6 scenario: `@a:x` (level 50)
raises its own `users` entry to 60. -/
def c6_event : Event :=
  ⟨"@a:x", "m.room.power_levels", some "", "!r:x", "$pl6", ["$pl4"], none, 2,
    [("users", .vObj [("@a:x", .vInt 60)])]⟩

/-- The C6 auth state (the same room as C4). -/
def c6_auth : StateMap Event :=
  [(("m.room.create", ""), c4_create), (("m.room.power_levels", ""), c4_pl_current)]

/-- C6: in the users sub-map check, for a user in the checked key set whose
value changed, a present old value `≥ user_level` or a present new value
`> user_level` makes the check fail; in particular a sender at level 50
changing its own entry from 50 to 60 is denied because 50 ≥ 50. -/
theorem c6_users_own_entry_freeze :
    (∀ (old_users new_users : List (String × Int)) (user_level : Int)
      (us : List String) (u : String), u ∈ us →
      lookupStr old_users u ≠ lookupStr new_users u →
      (levelGE (lookupStr old_users u) user_level = true ∨
        levelGT (lookupStr new_users u) user_level = true) →
      ∃ r, check_users_levels old_users new_users user_level us =
        .error (.denial r)) ∧
    check_power_levels c6_event c6_auth =
      .error (.denial "old level higher for @a:x greater than users") := by
  constructor
  · intro old_users new_users user_level us u
    induction us with
    | nil => intro hu; simp at hu
    | cons x rest ih =>
      intro hu hne hgl
      simp only [check_users_levels]
      split_ifs with h1 h2 h3
      · rcases List.mem_cons.1 hu with rfl | hmem
        · exact absurd h1 hne
        · exact ih hmem hne hgl
      · exact ⟨_, rfl⟩
      · exact ⟨_, rfl⟩
      · rcases List.mem_cons.1 hu with rfl | hmem
        · rcases hgl with hgl | hgl
          · exact absurd hgl (by simpa using h2)
          · exact absurd hgl (by simpa using h3)
        · exact ih hmem hne hgl
  · rfl

/-- C6, witness: the users-loop failure rule applied at a concrete input. -/
theorem c6_witness :
    ∃ r, check_users_levels [("@a:x", 50)] [("@a:x", 60)] 50 ["@a:x"] =
      .error (.denial r) :=
  c6_users_own_entry_freeze.1 [("@a:x", 50)] [("@a:x", 60)] 50 ["@a:x"] "@a:x"
    (by decide) (by decide) (by decide)

/-! ### Claim C5 — the events sub-map check is the symmetric rule -/

/-- The symmetric events-sub-map rule as the spec states it: for every type
in the union of the old (current auth state) and new (candidate event)
events maps, either the value is unchanged or every present side is at most
the sender's level. -/
def spec_events_submap_ok (old_map new_map : List (String × Int))
    (user_level : Int) : Prop :=
  ∀ k ∈ keysUnion old_map new_map,
    lookupStr old_map k = lookupStr new_map k ∨
    ((∀ l, lookupStr old_map k = some l → l ≤ user_level) ∧
     (∀ l, lookupStr new_map k = some l → l ≤ user_level))

/-- The events loop succeeds exactly when every checked key is unchanged or
bounded on both sides. -/
theorem check_events_levels_ok_iff (old_events new_events : List (String × Int))
    (user_level : Int) (ks : List String) :
    check_events_levels old_events new_events user_level ks = .ok () ↔
    ∀ k ∈ ks, lookupStr old_events k = lookupStr new_events k ∨
      ((∀ l, lookupStr old_events k = some l → l ≤ user_level) ∧
       (∀ l, lookupStr new_events k = some l → l ≤ user_level)) := by
  induction ks with
  | nil => simp [check_events_levels]
  | cons x rest ih =>
    simp only [check_events_levels]
    split_ifs with h1 h2 h3
    · rw [ih]
      constructor
      · intro h k hk
        rcases List.mem_cons.1 hk with rfl | hk
        · exact Or.inl h1
        · exact h k hk
      · intro h k hk
        exact h k (List.mem_cons_of_mem _ hk)
    · constructor
      · intro h
        exact absurd h (by simp)
      · intro h
        rcases h x (List.mem_cons_self x rest) with h | h
        · exact absurd h h1
        · rcases hof : lookupStr old_events x with _ | l
          · rw [hof] at h2
            simp [levelGT] at h2
          · rw [hof] at h2
            simp only [levelGT, decide_eq_true_eq] at h2
            exact absurd h2 (not_lt.2 (h.1 l hof))
    · constructor
      · intro h
        exact absurd h (by simp)
      · intro h
        rcases h x (List.mem_cons_self x rest) with h | h
        · exact absurd h h1
        · rcases hof : lookupStr new_events x with _ | l
          · rw [hof] at h3
            simp [levelGT] at h3
          · rw [hof] at h3
            simp only [levelGT, decide_eq_true_eq] at h3
            exact absurd h3 (not_lt.2 (h.2 l hof))
    · rw [ih]
      constructor
      · intro h k hk
        rcases List.mem_cons.1 hk with rfl | hk
        · refine Or.inr ⟨?_, ?_⟩
          · intro l hl
            rw [hl] at h2
            simp only [levelGT, decide_eq_true_eq] at h2
            exact not_lt.1 (by simpa using h2)
          · intro l hl
            rw [hl] at h3
            simp only [levelGT, decide_eq_true_eq] at h3
            exact not_lt.1 (by simpa using h3)
        · exact h k hk
      · intro h k hk
        exact h k (List.mem_cons_of_mem _ hk)

/-- Membership in the checked key union is symmetric in the two maps. -/
theorem mem_keysUnion_comm (a b : List (String × Int)) (k : String) :
    k ∈ keysUnion a b ↔ k ∈ keysUnion b a := by
  simp only [keysUnion, List.mem_dedup, List.mem_append]
  exact Or.comm

/-- C5: the source's events-sub-map check — whose `old` side is read from
the candidate event and whose `new` side is read from the current auth
state — accepts exactly the events accepted by the spec's symmetric rule, so
the swap of the old and new sides does not change which events are
accepted. -/
theorem c5_events_submap_symmetric (curr cand : List (String × Int))
    (user_level : Int) :
    (check_events_levels cand curr user_level (keysUnion cand curr) = .ok ()) ↔
    spec_events_submap_ok curr cand user_level := by
  rw [check_events_levels_ok_iff]
  unfold spec_events_submap_ok
  constructor
  · intro h k hk
    rcases h k ((mem_keysUnion_comm cand curr k).2 hk) with h | h
    · exact Or.inl h.symm
    · exact Or.inr ⟨h.2, h.1⟩
  · intro h k hk
    rcases h k ((mem_keysUnion_comm cand curr k).1 hk) with h | h
    · exact Or.inl h.symm
    · exact Or.inr ⟨h.2, h.1⟩

/-- C5, witness: the equivalence applied at a concrete changed entry that
both rules accept. -/
theorem c5_witness :
    check_events_levels [("m.z", 10)] [("m.z", 20)] 50
      (keysUnion [("m.z", 10)] [("m.z", 20)]) = .ok () :=
  (c5_events_submap_symmetric [("m.z", 20)] [("m.z", 10)] 50).mpr
    (by
      intro k hk
      simp only [keysUnion, List.mem_dedup] at hk
      simp at hk
      subst hk
      refine Or.inr ⟨?_, ?_⟩
      · intro l hl
        simp [lookupStr, List.find?] at hl
        omega
      · intro l hl
        simp [lookupStr, List.find?] at hl
        omega)

/-! ### Claim C3 — the creator join bypass -/

/-- The bypass branch of `check_membership` taken on its own. -/
theorem c3_membership_bypass (e : Event) (auth_events : StateMap Event) (ce : Event)
    (sk : String)
    (hmem : lookupStr e.content "membership" = some (.vStr "join"))
    (hce : StateMap.get auth_events "m.room.create" "" = some ce)
    (hprev : e.prev_events = [ce.event_id])
    (hsk : e.state_key = some sk)
    (hcr : (lookupStr ce.content "creator").bind Value.asStr = some sk) :
    check_membership e auth_events = .ok () := by
  simp [check_membership, hmem, hce, hprev, hsk, hcr,
    (show Value.asStr (Value.vStr "join") = some "join" from rfl)]
  rfl

/-- C3, amended: an `m.room.member` event whose content carries membership
`"join"`, whose single `prev_events` entry is the create event recorded in
the auth state, and whose `state_key` equals that create event's
`content.creator`, is accepted by `check` regardless of its remaining
fields — provided its `sender` contains a `:` (the Authorizer extracts the
sender domain before any dispatch, and an id without a colon is denied
`invalid ID`). -/
theorem c3_create_bypass (e : Event) (auth_events : StateMap Event) (ce : Event)
    (sk : String)
    (hdom : (get_domain_from_id e.sender).isSome)
    (hty : e.etype = "m.room.member")
    (hmem : lookupStr e.content "membership" = some (.vStr "join"))
    (hce : StateMap.get auth_events "m.room.create" "" = some ce)
    (hprev : e.prev_events = [ce.event_id])
    (hsk : e.state_key = some sk)
    (hcr : (lookupStr ce.content "creator").bind Value.asStr = some sk) :
    check e auth_events = .ok () := by
  obtain ⟨d, hd⟩ := Option.isSome_iff_exists.1 hdom
  have hmemb := c3_membership_bypass e auth_events ce sk hmem hce hprev hsk hcr
  have hck : StateMap.contains_key auth_events "m.room.create" "" = true := by
    simp [StateMap.contains_key, hce]
  simp [check, hd, hty, hck, hmemb]

/-- The create event of the concrete C3 room. -/
def c3_create : Event :=
  ⟨"@a:x", "m.room.create", some "", "!r:x", "$create3", [], none, 1,
    [("creator", .vStr "@a:x")]⟩

/-- The C3 auth state. -/
def c3_auth : StateMap Event :=
  [(("m.room.create", ""), c3_create)]

/-- A creator join satisfying every listed bypass condition, but whose
sender has no colon. -/
def c3_bad_event : Event :=
  ⟨"nocolon", "m.room.member", some "@a:x", "!r:x", "$join3", ["$create3"], none, 2,
    [("membership", .vStr "join")]⟩

/-- A creator join as in the claim, with a well-formed sender. -/
def c3_good_event : Event :=
  ⟨"@a:x", "m.room.member", some "@a:x", "!r:x", "$join3g", ["$create3"], none, 2,
    [("membership", .vStr "join")]⟩

/-- C3, counterexample: an event satisfying all of the claim's conditions —
member type, membership `"join"`, single `prev_events` entry naming the
stored create event, `state_key` equal to the creator — is nevertheless
denied when its sender (one of the "other fields") has no colon. -/
theorem c3_counterexample :
    c3_bad_event.etype = "m.room.member" ∧
    lookupStr c3_bad_event.content "membership" = some (.vStr "join") ∧
    StateMap.get c3_auth "m.room.create" "" = some c3_create ∧
    c3_bad_event.prev_events = [c3_create.event_id] ∧
    c3_bad_event.state_key = some "@a:x" ∧
    (lookupStr c3_create.content "creator").bind Value.asStr = some "@a:x" ∧
    check c3_bad_event c3_auth = .error (.denial "invalid ID") :=
  ⟨rfl, rfl, rfl, rfl, rfl, rfl, rfl⟩

/-- C3, witness: the amended bypass applied to a concrete creator join. -/
theorem c3_witness : check c3_good_event c3_auth = .ok () :=
  c3_create_bypass c3_good_event c3_auth c3_create "@a:x" rfl rfl rfl rfl rfl rfl rfl

/-! ### Claims C1 and C2 — the DAG engine's state walk -/

/-- `lookupStr` is the string instance of the generic lookup. -/
theorem lookupStr_eq_lookupKey {α : Type} (l : List (String × α)) (k : String) :
    lookupStr l k = lookupKey l k := rfl

/-- When every recorded predecessor state group has a stored state map, the
multi-predecessor collection drops exactly the unrecorded predecessors. -/
theorem collect_prev_states_eq (st : EngineState) (pids : List String)
    (hinv : ∀ p sg, p ∈ pids → lookupStr st.event_to_sg p = some sg →
      ∃ s, lookupKey st.sg_to_state sg = some s) :
    collect_prev_states st pids = some (pids.filterMap
      (fun p => (lookupStr st.event_to_sg p).bind
        (fun sg => lookupKey st.sg_to_state sg))) := by
  induction pids with
  | nil => rfl
  | cons p rest ih =>
    have ih2 := ih (fun q sg hq => hinv q sg (List.mem_cons_of_mem _ hq))
    rcases hp : lookupStr st.event_to_sg p with _ | sg
    · simp only [collect_prev_states, hp, List.filterMap_cons, Option.none_bind]
      exact ih2
    · obtain ⟨s, hs⟩ := hinv p sg (List.mem_cons_self _ _) hp
      simp only [collect_prev_states, hp, hs, List.filterMap_cons, Option.some_bind, ih2]
      rfl

/-- C2, amended: in the walk's predecessor-state computation for an event
with two or more `prev_events`, provided every recorded state group has a
stored state map, predecessors without a recorded state group are dropped
(the resolver receives exactly the recorded predecessors' states, and
`current_sg` stays unset); when all predecessors are unrecorded the resolver
receives empty input and yields the empty map.  (For an event with exactly
one predecessor a missing state group is fatal, as `c2_counterexample`
shows, so the claim's "every event" generalisation fails.) -/
theorem c2_missing_predecessors_dropped (em : EventMap) (st : EngineState) (e : Event)
    (hlen : e.prev_events.length > 1)
    (hinv : ∀ p sg, p ∈ e.prev_events → lookupStr st.event_to_sg p = some sg →
      ∃ s, lookupKey st.sg_to_state sg = some s) :
    compute_prev_state em st e =
      (resolve_state (e.prev_events.filterMap
        (fun p => (lookupStr st.event_to_sg p).bind
          (fun sg => lookupKey st.sg_to_state sg))) em).map (fun s => (none, s)) ∧
    ((∀ p ∈ e.prev_events, lookupStr st.event_to_sg p = none) →
      compute_prev_state em st e = some (none, [])) := by
  have hcoll := collect_prev_states_eq st e.prev_events hinv
  constructor
  · simp only [compute_prev_state, if_pos hlen, hcoll]
    cases hres : resolve_state (e.prev_events.filterMap
      (fun p => (lookupStr st.event_to_sg p).bind
        (fun sg => lookupKey st.sg_to_state sg))) em <;> simp [hres]
  · intro hall
    have hfm : e.prev_events.filterMap
        (fun p => (lookupStr st.event_to_sg p).bind
          (fun sg => lookupKey st.sg_to_state sg)) = [] := by
      rw [List.filterMap_eq_nil_iff]
      intro p hp
      rw [hall p hp]
      rfl
    simp only [compute_prev_state, if_pos hlen, hcoll, hfm]
    rfl

/-- A single event whose only predecessor is absent from the walk's
records. -/
def c2_event : Event :=
  ⟨"@a:x", "m.x", none, "!r:x", "$e2", ["$missing2"], none, 2, []⟩

/-- The event map containing only `c2_event`. -/
def c2_em : EventMap := [("$e2", c2_event)]

/-- C2, counterexample: an event with exactly one `prev_events` entry whose
predecessor has no recorded state group makes the walk terminate fatally
(the single-predecessor branch indexes `event_to_sg` directly), refuting the
claim's "never terminates fatally … regardless of its number of
prev_events". -/
theorem c2_counterexample :
    c2_event.prev_events.length = 1 ∧
    lookupStr (⟨0, [], []⟩ : EngineState).event_to_sg "$missing2" = none ∧
    walk c2_em ["$e2"] = none :=
  ⟨rfl, rfl, rfl⟩

/-- The walk state used by the C2 witness: one processed predecessor with
state group 1 and a stored (empty) state map. -/
def c2w_st : EngineState := ⟨1, [("$p1", 1)], [(1, [])]⟩

/-- A two-predecessor event, one predecessor recorded and one missing. -/
def c2w_e : Event :=
  ⟨"@a:x", "m.x", none, "!r:x", "$e2w", ["$p1", "$p2"], none, 3, []⟩

/-- The event map of the C2 witness. -/
def c2w_em : EventMap := [("$e2w", c2w_e)]

/-- C2, witness: the amended dropping behaviour at a concrete
two-predecessor event with one unrecorded predecessor. -/
theorem c2_witness :
    compute_prev_state c2w_em c2w_st c2w_e =
      (resolve_state (c2w_e.prev_events.filterMap
        (fun p => (lookupStr c2w_st.event_to_sg p).bind
          (fun sg => lookupKey c2w_st.sg_to_state sg))) c2w_em).map
        (fun s => (none, s)) ∧
    ((∀ p ∈ c2w_e.prev_events, lookupStr c2w_st.event_to_sg p = none) →
      compute_prev_state c2w_em c2w_st c2w_e = some (none, [])) :=
  c2_missing_predecessors_dropped c2w_em c2w_st c2w_e (by decide)
    (by
      intro p sg hp hlk
      rcases List.mem_cons.1 hp with rfl | hp
      · have h1 : lookupStr c2w_st.event_to_sg "$p1" = some 1 := rfl
        rw [h1] at hlk
        obtain rfl := Option.some.inj hlk
        exact ⟨[], rfl⟩
      · rcases List.mem_singleton.1 hp with rfl
        have h2 : lookupStr c2w_st.event_to_sg "$p2" = none := rfl
        rw [h2] at hlk
        exact absurd hlk (by simp))

/-- C1, amended: in one step of the walk, an event with exactly one
predecessor and no `state_key` is assigned its predecessor's recorded state
group; every other event (no predecessors, several predecessors, or a state
event) is assigned the freshly minted group `next_sg + 1`.  State-group
sharing therefore arises only along single-predecessor non-state chains;
identical pre-event state content by itself does not yield a shared group
(see `c1_counterexample`). -/
theorem c1_state_group_reuse (em : EventMap) (st st2 : EngineState) (eid : String)
    (e : Event) (hev : lookupStr em eid = some e)
    (hstep : walk_step em st eid = some st2) :
    (∀ p, e.prev_events = [p] → e.state_key = none →
      lookupStr st2.event_to_sg eid = lookupStr st.event_to_sg p) ∧
    ((e.prev_events.length ≠ 1 ∨ e.state_key ≠ none) →
      lookupStr st2.event_to_sg eid = some (st.next_sg + 1) ∧
      st2.next_sg = st.next_sg + 1) := by
  simp only [walk_step, hev] at hstep
  constructor
  · intro p hp hsk
    rcases hsg : lookupStr st.event_to_sg p with _ | sg
    · have hc : compute_prev_state em st e = none := by
        simp [compute_prev_state, hp, hsg]
      rw [hc] at hstep
      exact absurd hstep (by simp)
    · rcases hss : lookupKey st.sg_to_state sg with _ | smap
      · have hc : compute_prev_state em st e = none := by
          simp [compute_prev_state, hp, hsg, hss]
        rw [hc] at hstep
        exact absurd hstep (by simp)
      · have hc : compute_prev_state em st e = some (some sg, smap) := by
          simp [compute_prev_state, hp, hsg, hss]
        rw [hc] at hstep
        simp only [hsk] at hstep
        obtain rfl := Option.some.inj hstep
        rw [lookupStr_eq_lookupKey]
        exact lookupKey_insertKey_self st.event_to_sg eid sg
  · intro hcase
    rcases hc : compute_prev_state em st e with _ | cs
    · rw [hc] at hstep
      exact absurd hstep (by simp)
    · rw [hc] at hstep
      obtain ⟨csg, s0⟩ := cs
      rcases hskc : e.state_key with _ | sk
      · have hlen1 : e.prev_events.length ≠ 1 := by
          rcases hcase with h | h
          · exact h
          · exact absurd hskc h
        have hcsg : csg = none := by
          by_cases hgt : e.prev_events.length > 1
          · simp only [compute_prev_state, if_pos hgt] at hc
            rcases hcps : collect_prev_states st e.prev_events with _ | l
            · simp [hcps] at hc
            · simp only [hcps] at hc
              rcases hrs : resolve_state l em with _ | r
              · simp [hrs] at hc
              · simp only [hrs] at hc
                exact (congrArg Prod.fst (Option.some.inj hc)).symm
          · simp only [compute_prev_state, if_neg hgt, if_neg hlen1] at hc
            exact (congrArg Prod.fst (Option.some.inj hc)).symm
        subst hcsg
        simp only [hskc] at hstep
        obtain rfl := Option.some.inj hstep
        exact ⟨by
          rw [lookupStr_eq_lookupKey]
          exact lookupKey_insertKey_self st.event_to_sg eid (st.next_sg + 1), rfl⟩
      · simp only [hskc] at hstep
        obtain rfl := Option.some.inj hstep
        exact ⟨by
          rw [lookupStr_eq_lookupKey]
          exact lookupKey_insertKey_self st.event_to_sg eid (st.next_sg + 1), rfl⟩

/-- The first root event of the C1 counterexample. -/
def c1_evA : Event := ⟨"@a:x", "m.x", none, "!r:x", "$a1", [], none, 1, []⟩

/-- The second root event of the C1 counterexample. -/
def c1_evB : Event := ⟨"@b:x", "m.x", none, "!r:x", "$b1", [], none, 1, []⟩

/-- The two-root event map of the C1 counterexample. -/
def c1_em : EventMap := [("$a1", c1_evA), ("$b1", c1_evB)]

/-- The walk state after processing the first root. -/
def c1_mid : EngineState := ⟨1, [("$a1", 1)], [(1, [])]⟩

/-- The walk state after processing both roots. -/
def c1_final : EngineState := ⟨2, [("$a1", 1), ("$b1", 2)], [(1, []), (2, [])]⟩

/-- C1, counterexample: two root events have identical (empty) pre-event
state mappings — `compute_prev_state` yields `(none, [])` for both — yet the
walk assigns them different state-group ids (1 and 2), refuting the claimed
"same state group iff identical pre-event state" and its "identical
predecessor states plus no state mutation" consequence. -/
theorem c1_counterexample :
    walk c1_em ["$a1"] = some c1_mid ∧
    walk c1_em ["$a1", "$b1"] = some c1_final ∧
    compute_prev_state c1_em ⟨0, [], []⟩ c1_evA = some (none, []) ∧
    compute_prev_state c1_em c1_mid c1_evB = some (none, []) ∧
    lookupStr c1_final.event_to_sg "$a1" = some 1 ∧
    lookupStr c1_final.event_to_sg "$b1" = some 2 :=
  ⟨rfl, rfl, rfl, rfl, rfl, rfl⟩

/-- A single-predecessor non-state child of the first C1 root. -/
def c1_evC : Event := ⟨"@a:x", "m.x", none, "!r:x", "$c1", ["$a1"], none, 2, []⟩

/-- The event map of the C1 witness. -/
def c1w_em : EventMap := [("$a1", c1_evA), ("$c1", c1_evC)]

/-- C1, witness: the reuse rule applied to a concrete single-predecessor
non-state event. -/
theorem c1_witness :
    lookupStr (⟨1, [("$a1", 1), ("$c1", 1)], [(1, [])]⟩ : EngineState).event_to_sg
      "$c1" = lookupStr c1_mid.event_to_sg "$a1" :=
  (c1_state_group_reuse c1w_em c1_mid ⟨1, [("$a1", 1), ("$c1", 1)], [(1, [])]⟩
    "$c1" c1_evC rfl rfl).1 "$a1" rfl rfl

/-! ### Claim C10 — conflicted slots hold at least two distinct events -/

/-- Every conflicted entry holds at least two events with pairwise distinct
event ids. -/
def ConfOK (c : Conflicted) : Prop :=
  ∀ en ∈ c, 2 ≤ en.2.length ∧ en.2.Pairwise (fun a b => a.event_id ≠ b.event_id)

theorem mem_insertKey {κ α : Type} [BEq κ] [LawfulBEq κ] [DecidableEq κ]
    {l : List (κ × α)} {k : κ} {v : α} {a : κ × α}
    (h : a ∈ insertKey l k v) : a ∈ l ∨ a = (k, v) := by
  induction l with
  | nil =>
    rw [insertKey_nil] at h
    exact Or.inr (List.mem_singleton.1 h)
  | cons e rest ih =>
    rw [insertKey_cons] at h
    by_cases he : e.1 = k
    · rw [if_pos he] at h
      rcases List.mem_cons.1 h with rfl | h
      · exact Or.inr rfl
      · exact Or.inl (List.mem_cons_of_mem _ h)
    · rw [if_neg he] at h
      rcases List.mem_cons.1 h with rfl | h
      · exact Or.inl (List.mem_cons_self _ _)
      · rcases ih h with h | h
        · exact Or.inl (List.mem_cons_of_mem _ h)
        · exact Or.inr h

theorem StateMap.mem_insert {α : Type} {m : StateMap α} {t s : String} {v : α}
    {a : (String × String) × α} (h : a ∈ StateMap.insert m t s v) :
    a ∈ m ∨ a = ((t, s), v) := by
  rw [StateMap.insert_eq_insertKey] at h
  exact mem_insertKey h

theorem StateMap.get_mem {α : Type} {m : StateMap α} {t s : String} {v : α}
    (h : StateMap.get m t s = some v) : ((t, s), v) ∈ m := by
  rw [StateMap.get_eq_lookupKey] at h
  exact lookupKey_mem h

/-- `add_or_remove` reports a previous value only when it differs from the
inserted one. -/
theorem add_or_remove_some_ne {α : Type} [DecidableEq α] {m : StateMap α}
    {t s : String} {v w : α} {u : StateMap α}
    (h : StateMap.add_or_remove m t s v = (u, some w)) : w ≠ v := by
  rcases hg : StateMap.get m t s with _ | w2
  · simp only [StateMap.add_or_remove, hg] at h
    exact absurd (congrArg Prod.snd h) (by simp)
  · simp only [StateMap.add_or_remove, hg] at h
    by_cases hv : w2 = v
    · rw [if_pos hv] at h
      exact absurd (congrArg Prod.snd h) (by simp)
    · rw [if_neg hv] at h
      have h2 : some w2 = some w := congrArg Prod.snd h
      rw [← Option.some.inj h2]
      exact hv

/-- A generic invariant-preservation principle for `Option`-valued left
folds. -/
theorem foldlM_option_inv {σ α : Type} (f : σ → α → Option σ) (P : σ → Prop)
    (hstep : ∀ s a s2, P s → f s a = some s2 → P s2) :
    ∀ (l : List α) (s s2 : σ), P s → List.foldlM f s l = some s2 → P s2 := by
  intro l
  induction l with
  | nil =>
    intro s s2 hP h
    rw [List.foldlM_nil] at h
    rw [← Option.some.inj h]
    exact hP
  | cons a rest ih =>
    intro s s2 hP h
    rw [List.foldlM_cons] at h
    rcases hf : f s a with _ | s1
    · rw [hf] at h
      exact absurd h (by simp)
    · rw [hf] at h
      exact ih s1 s2 (hstep s a s1 hP hf) h

/-- One conflict-split step preserves the conflicted invariant. -/
theorem add_split_conf (em : EventMap)
    (hcons : ∀ id ev, lookupStr em id = some ev → ev.event_id = id)
    (acc acc2 : StateMap String × Conflicted) (entry : (String × String) × String)
    (hP : ConfOK acc.2) (h : add_split em acc entry = some acc2) : ConfOK acc2.2 := by
  obtain ⟨u, c⟩ := acc
  obtain ⟨⟨t, s⟩, eid⟩ := entry
  simp only [add_split] at h
  rcases hg : StateMap.get c t s with _ | v
  · rw [hg] at h
    rcases har : StateMap.add_or_remove u t s eid with ⟨u2, o⟩
    rw [har] at h
    rcases o with _ | eid_prev
    · rw [← Option.some.inj h]
      exact hP
    · rcases hev : lookupStr em eid with _ | ev
      · simp only [hev] at h
        exact absurd h (by simp)
      · rcases hevp : lookupStr em eid_prev with _ | evp
        · simp only [hev, hevp] at h
          exact absurd h (by simp)
        · simp only [hev, hevp] at h
          rw [← Option.some.inj h]
          intro en hen
          rcases StateMap.mem_insert hen with hin | rfl
          · exact hP en hin
          · refine ⟨by simp, ?_⟩
            have hne : eid_prev ≠ eid := add_or_remove_some_ne har
            have hide : ev.event_id = eid := hcons eid ev hev
            have hidp : evp.event_id = eid_prev := hcons eid_prev evp hevp
            refine List.pairwise_cons.2 ⟨?_, by simp⟩
            intro b hb
            rcases List.mem_singleton.1 hb with rfl
            rw [hide, hidp]
            exact fun hc => hne hc.symm
  · simp only [hg] at h
    by_cases hany : v.any (fun ev => ev.event_id == eid) = true
    · rw [if_pos hany] at h
      rw [← Option.some.inj h]
      exact hP
    · rw [if_neg hany] at h
      rcases hev : lookupStr em eid with _ | ev
      · rw [hev] at h
        exact absurd h (by simp)
      · rw [hev] at h
        rw [← Option.some.inj h]
        intro en hen
        rcases StateMap.mem_insert hen with hin | rfl
        · exact hP en hin
        · obtain ⟨hlen, hpw⟩ := hP _ (StateMap.get_mem hg)
          have hlen2 : 2 ≤ v.length := hlen
          refine ⟨by rw [List.length_append]; simp only [List.length_cons,
            List.length_nil]; omega, ?_⟩
          rw [List.pairwise_append]
          refine ⟨hpw, by simp, ?_⟩
          intro a ha b hb
          rcases List.mem_singleton.1 hb with rfl
          have hide : b.event_id = eid := hcons eid b hev
          rw [hide]
          have := List.any_eq_false.1 (Bool.not_eq_true _ ▸ hany) a ha
          simpa using this

/-- The conflict-split phase produces a conflicted map whose every entry
holds at least two events with pairwise distinct ids. -/
theorem split_maps_conf (em : EventMap)
    (hcons : ∀ id ev, lookupStr em id = some ev → ev.event_id = id)
    (first : StateMap String) (rest : List (StateMap String))
    (u : StateMap String) (c : Conflicted)
    (h : split_maps em first rest = some (u, c)) : ConfOK c := by
  unfold split_maps at h
  exact foldlM_option_inv
    (fun acc m => m.foldlM (add_split em) acc)
    (fun acc : StateMap String × Conflicted => ConfOK acc.2)
    (fun acc m acc2 hP hm =>
      foldlM_option_inv (add_split em)
        (fun acc : StateMap String × Conflicted => ConfOK acc.2)
        (fun a en a2 hPa ha => add_split_conf em hcons a a2 en hPa ha)
        m acc acc2 hP hm)
    rest (first, ([] : Conflicted)) (u, c) (by intro en hen; simp at hen) h

/-- The event ordering of the resolver never empties a non-empty list. -/
theorem order_events_ne_nil {events : List Event} (h : events ≠ []) :
    order_events events ≠ [] := by
  intro hc
  have hlen : (order_events events).length = events.length := by
    simp [order_events]
  rw [hc] at hlen
  exact h (List.length_eq_zero.1 hlen.symm)

/-- C10: every entry of the conflicted map built by `resolve_state`'s split
phase holds at least two events with pairwise distinct event ids (assuming
the event map binds each id to an event carrying that id, as ingestion
does); and the resolver's ordering keeps candidate vectors non-empty, so
the `events[0]` access of `resolve_auth_events` and the `last().unwrap()`
of `resolve_normal_events` are safe on them. -/
theorem c10_conflicted_at_least_two :
    (∀ (em : EventMap) (first : StateMap String) (rest : List (StateMap String))
      (u : StateMap String) (c : Conflicted),
      (∀ id ev, lookupStr em id = some ev → ev.event_id = id) →
      split_maps em first rest = some (u, c) →
      ∀ en ∈ c, 2 ≤ en.2.length ∧
        en.2.Pairwise (fun a b => a.event_id ≠ b.event_id)) ∧
    (∀ events : List Event, events ≠ [] →
      (order_events events).reverse ≠ [] ∧ order_events events ≠ []) := by
  constructor
  · intro em first rest u c hcons h
    exact split_maps_conf em hcons first rest u c h
  · intro events h
    refine ⟨?_, order_events_ne_nil h⟩
    intro hc
    exact order_events_ne_nil h (by simpa using congrArg List.reverse hc)

/-- The joining candidate of the C10 witness. -/
def c10_evJ : Event :=
  ⟨"@b:x", "m.room.member", some "@b:x", "!r:x", "$J0", [], none, 3,
    [("membership", .vStr "join")]⟩

/-- The leaving candidate of the C10 witness. -/
def c10_evL : Event :=
  ⟨"@b:x", "m.room.member", some "@b:x", "!r:x", "$L0", [], none, 3,
    [("membership", .vStr "leave")]⟩

/-- The event map of the C10 witness. -/
def c10_em : EventMap := [("$J0", c10_evJ), ("$L0", c10_evL)]

/-- The first input state map of the C10 witness. -/
def c10_first : StateMap String := [(("m.room.member", "@b:x"), "$J0")]

/-- The conflicting second input of the C10 witness. -/
def c10_rest : List (StateMap String) := [[(("m.room.member", "@b:x"), "$L0")]]

/-- The unconflicted map produced by the split on the C10 inputs. -/
def c10_u : StateMap String := [(("m.room.member", "@b:x"), "$L0")]

/-- The conflicted map produced by the split on the C10 inputs. -/
def c10_c : Conflicted := [(("m.room.member", "@b:x"), [c10_evL, c10_evJ])]

/-- C10, witness: the invariant applied to a concrete two-map conflict, and
the non-emptiness of the ordering on a concrete one-event vector. -/
theorem c10_witness :
    (2 ≤ [c10_evL, c10_evJ].length ∧
      ([c10_evL, c10_evJ]).Pairwise (fun a b => a.event_id ≠ b.event_id)) ∧
    ((order_events [c10_evJ]).reverse ≠ [] ∧ order_events [c10_evJ] ≠ []) := by
  constructor
  · refine c10_conflicted_at_least_two.1 c10_em c10_first c10_rest c10_u c10_c
      ?_ rfl (("m.room.member", "@b:x"), [c10_evL, c10_evJ])
      (List.mem_singleton.2 rfl)
    intro id ev h
    simp only [c10_em] at h
    rw [lookupStr_eq_lookupKey, lookupKey_cons, lookupKey_cons, lookupKey_nil] at h
    split_ifs at h with h1 h2
    · rw [← Option.some.inj h, ← h1]
      rfl
    · rw [← Option.some.inj h, ← h2]
      rfl
  · exact c10_conflicted_at_least_two.2 [c10_evJ] (by simp)

/-! ### Claim C8 — preservation of unanimously agreed slots -/

/-- Membership version of the fold invariant principle. -/
theorem foldlM_option_inv_mem {σ α : Type} (f : σ → α → Option σ) (P : σ → Prop) :
    ∀ l : List α, (∀ s a s2, a ∈ l → P s → f s a = some s2 → P s2) →
    ∀ s s2 : σ, P s → List.foldlM f s l = some s2 → P s2 := by
  intro l
  induction l with
  | nil =>
    intro _ s s2 hP h
    rw [List.foldlM_nil] at h
    rw [← Option.some.inj h]
    exact hP
  | cons a rest ih =>
    intro hstep s s2 hP h
    rw [List.foldlM_cons] at h
    rcases hf : f s a with _ | s1
    · rw [hf] at h
      exact absurd h (by simp)
    · rw [hf] at h
      exact ih (fun s' a' s2' ha' => hstep s' a' s2' (List.mem_cons_of_mem _ ha'))
        s1 s2 (hstep s a s1 (List.mem_cons_self _ _) hP hf) h

theorem StateMap.keys_insert {α : Type} {m : StateMap α} {t s : String} {w : α}
    {x : String × String} (h : x ∈ (StateMap.insert m t s w).map (·.1)) :
    x ∈ m.map (·.1) ∨ x = (t, s) := by
  obtain ⟨en, hen, rfl⟩ := List.mem_map.1 h
  rcases StateMap.mem_insert hen with h2 | rfl
  · exact Or.inl (List.mem_map.2 ⟨en, h2, rfl⟩)
  · exact Or.inr rfl

theorem StateMap.get_key_mem {α : Type} {m : StateMap α} {t s : String} {w : α}
    (h : StateMap.get m t s = some w) : (t, s) ∈ m.map (·.1) :=
  List.mem_map.2 ⟨((t, s), w), StateMap.get_mem h, rfl⟩

theorem mem_iter_join_rules_key {α : Type} {m : StateMap α} {p : String × α}
    (h : p ∈ StateMap.iter_join_rules m) :
    ("m.room.join_rules", p.1) ∈ m.map (·.1) := by
  obtain ⟨en, hen, heq⟩ := List.mem_filterMap.1 h
  by_cases ht : en.1.1 = "m.room.join_rules"
  · rw [if_pos ht] at heq
    obtain rfl := Option.some.inj heq
    refine List.mem_map.2 ⟨en, hen, ?_⟩
    exact Prod.ext ht rfl
  · rw [if_neg ht] at heq
    exact absurd heq (by simp)

theorem mem_iter_members_key {α : Type} {m : StateMap α} {p : String × α}
    (h : p ∈ StateMap.iter_members m) :
    ("m.room.member", p.1) ∈ m.map (·.1) := by
  obtain ⟨en, hen, heq⟩ := List.mem_filterMap.1 h
  by_cases ht : en.1.1 = "m.room.member"
  · rw [if_pos ht] at heq
    obtain rfl := Option.some.inj heq
    refine List.mem_map.2 ⟨en, hen, ?_⟩
    exact Prod.ext ht rfl
  · rw [if_neg ht] at heq
    exact absurd heq (by simp)

theorem mem_iter_non_members_key {α : Type} {m : StateMap α}
    {p : (String × String) × α} (h : p ∈ StateMap.iter_non_members m) :
    p.1 ∈ m.map (·.1) :=
  List.mem_map.2 ⟨p, (List.mem_filter.1 h).1, rfl⟩

/-- Keys hold unique values in a key-nodup map. -/
theorem value_eq_of_nodup_get {α : Type} (m : StateMap α) (t s : String) (v : α) :
    (m.map (·.1)).Nodup → StateMap.get m t s = some v →
    ∀ en ∈ m, en.1 = (t, s) → en.2 = v := by
  induction m with
  | nil => intro _ _ en hen; simp at hen
  | cons e rest ih =>
    intro hnd hget en hen hkey
    rw [StateMap.get_cons] at hget
    rcases List.mem_cons.1 hen with rfl | hen2
    · rw [if_pos hkey] at hget
      exact Option.some.inj hget
    · by_cases he : e.1 = (t, s)
      · exfalso
        have hmem : (t, s) ∈ rest.map (·.1) := List.mem_map.2 ⟨en, hen2, hkey⟩
        rw [← he] at hmem
        exact (List.nodup_cons.1 (by simpa using hnd)).1 hmem
      · rw [if_neg he] at hget
        exact ih (List.nodup_cons.1 (by simpa using hnd)).2 hget en hen2 hkey

theorem add_or_remove_get_other {α : Type} [DecidableEq α] (m : StateMap α)
    (t' s' t s : String) (w : α) (hne : (t', s') ≠ (t, s)) :
    StateMap.get (StateMap.add_or_remove m t' s' w).1 t s = StateMap.get m t s := by
  rcases hg : StateMap.get m t' s' with _ | w2
  · simp only [StateMap.add_or_remove, hg]
    exact StateMap.get_insert_ne m t' s' t s w (fun hc => hne (by rw [hc]))
  · simp only [StateMap.add_or_remove, hg]
    by_cases hv : w2 = w
    · rw [if_pos hv]
    · rw [if_neg hv]
      exact StateMap.get_insert_ne m t' s' t s w (fun hc => hne (by rw [hc]))

theorem add_or_remove_self_eq {α : Type} [DecidableEq α] (m : StateMap α)
    (t s : String) (v : α) (h : StateMap.get m t s = some v) :
    StateMap.add_or_remove m t s v = (m, none) := by
  simp [StateMap.add_or_remove, h]

/-- One conflict-split step preserves a unanimously agreed slot: the
unconflicted map keeps its value and the slot never enters the conflicted
map. -/
theorem add_split_pres (em : EventMap) (t s v : String)
    (acc acc2 : StateMap String × Conflicted) (entry : (String × String) × String)
    (hval : entry.1 = (t, s) → entry.2 = v)
    (hu : StateMap.get acc.1 t s = some v) (hc : (t, s) ∉ acc.2.map (·.1))
    (h : add_split em acc entry = some acc2) :
    StateMap.get acc2.1 t s = some v ∧ (t, s) ∉ acc2.2.map (·.1) := by
  obtain ⟨u, c⟩ := acc
  obtain ⟨⟨t', s'⟩, eid⟩ := entry
  simp only [add_split] at h
  rcases hg : StateMap.get c t' s' with _ | v0
  · simp only [hg] at h
    by_cases hkey : (t', s') = (t, s)
    · obtain ⟨rfl, rfl⟩ := Prod.mk.injEq .. ▸ hkey
      have heid : eid = v := hval rfl
      subst heid
      rw [add_or_remove_self_eq u t' s' eid hu] at h
      rw [← Option.some.inj h]
      exact ⟨hu, hc⟩
    · rcases har : StateMap.add_or_remove u t' s' eid with ⟨u2, o⟩
      rw [har] at h
      have hu2 : StateMap.get u2 t s = some v := by
        have h3 := add_or_remove_get_other u t' s' t s eid hkey
        rw [har] at h3
        rw [show (u2, o).1 = u2 from rfl] at h3
        rw [h3]
        exact hu
      rcases o with _ | eid_prev
      · rw [← Option.some.inj h]
        exact ⟨hu2, hc⟩
      · rcases hev : lookupStr em eid with _ | ev
        · simp only [hev] at h
          exact absurd h (by simp)
        · rcases hevp : lookupStr em eid_prev with _ | evp
          · simp only [hev, hevp] at h
            exact absurd h (by simp)
          · simp only [hev, hevp] at h
            rw [← Option.some.inj h]
            refine ⟨hu2, ?_⟩
            intro hmem
            rcases StateMap.keys_insert hmem with h2 | h2
            · exact hc h2
            · exact hkey h2.symm
  · simp only [hg] at h
    have hkey : (t', s') ≠ (t, s) := by
      intro hc2
      exact hc (hc2 ▸ StateMap.get_key_mem hg)
    by_cases hany : v0.any (fun ev => ev.event_id == eid) = true
    · rw [if_pos hany] at h
      rw [← Option.some.inj h]
      exact ⟨hu, hc⟩
    · rw [if_neg hany] at h
      rcases hev : lookupStr em eid with _ | ev
      · rw [hev] at h
        exact absurd h (by simp)
      · rw [hev] at h
        rw [← Option.some.inj h]
        refine ⟨hu, ?_⟩
        intro hmem
        rcases StateMap.keys_insert hmem with h2 | h2
        · exact hc h2
        · exact hkey h2.symm

/-- The conflict-split phase preserves a slot carried identically by every
input map. -/
theorem split_maps_pres (em : EventMap) (t s v : String)
    (first : StateMap String) (rest : List (StateMap String))
    (u : StateMap String) (c : Conflicted)
    (hfirst : StateMap.get first t s = some v)
    (hrest : ∀ m ∈ rest, ∀ en ∈ m, en.1 = (t, s) → en.2 = v)
    (h : split_maps em first rest = some (u, c)) :
    StateMap.get u t s = some v ∧ (t, s) ∉ c.map (·.1) := by
  unfold split_maps at h
  exact foldlM_option_inv_mem
    (fun acc m => m.foldlM (add_split em) acc)
    (fun acc : StateMap String × Conflicted =>
      StateMap.get acc.1 t s = some v ∧ (t, s) ∉ acc.2.map (·.1))
    rest
    (fun acc m acc2 hm hP hstep =>
      foldlM_option_inv_mem (add_split em)
        (fun acc : StateMap String × Conflicted =>
          StateMap.get acc.1 t s = some v ∧ (t, s) ∉ acc.2.map (·.1))
        m
        (fun a en a2 hen hPa ha =>
          add_split_pres em t s v a a2 en (hrest m hm en hen) hPa.1 hPa.2 ha)
        acc acc2 hP hstep)
    (first, ([] : Conflicted)) (u, c) ⟨hfirst, by simp⟩ h

/-- The power-levels stage does not overwrite a slot outside the conflicted
map. -/
theorem pl_stage_pres (c : Conflicted) (acc acc2 : StateMap String × StateMap Event)
    (t s v : String) (hc : (t, s) ∉ c.map (·.1))
    (hu : StateMap.get acc.1 t s = some v) (h : pl_stage c acc = some acc2) :
    StateMap.get acc2.1 t s = some v := by
  unfold pl_stage at h
  rcases hg : StateMap.get_well_known c with _ | events
  · simp only [hg] at h
    rw [← Option.some.inj h]
    exact hu
  · simp only [hg] at h
    rcases hre : resolve_auth_events ("m.room.power_levels", "") events acc.2 with _ | ev
    · simp only [hre] at h
      exact absurd h (by simp)
    · simp only [hre] at h
      rw [← Option.some.inj h]
      have hne : ("m.room.power_levels", "") ≠ (t, s) := by
        intro hc2
        exact hc (hc2 ▸ StateMap.get_key_mem hg)
      exact (StateMap.get_insert_ne acc.1 "m.room.power_levels" "" t s ev.event_id
        (fun h2 => hne h2.symm)).trans hu

/-- A join-rules stage step does not overwrite a slot outside the conflicted
map. -/
theorem jr_step_pres (jae : StateMap Event) (c : Conflicted)
    (t s v : String) (hc : (t, s) ∉ c.map (·.1))
    (acc acc2 : StateMap String × StateMap Event) (p : String × List Event)
    (hp : p ∈ StateMap.iter_join_rules c)
    (hu : StateMap.get acc.1 t s = some v) (h : jr_step jae acc p = some acc2) :
    StateMap.get acc2.1 t s = some v := by
  unfold jr_step at h
  rcases hre : resolve_auth_events ("m.room.join_rules", p.1) p.2 jae with _ | ev
  · simp only [hre] at h
    exact absurd h (by simp)
  · simp only [hre] at h
    rw [← Option.some.inj h]
    have hne : ("m.room.join_rules", p.1) ≠ (t, s) := by
      intro hc2
      exact hc (hc2 ▸ mem_iter_join_rules_key hp)
    exact (StateMap.get_insert_ne acc.1 "m.room.join_rules" p.1 t s ev.event_id
      (fun h2 => hne h2.symm)).trans hu

/-- A member stage step does not overwrite a slot outside the conflicted
map. -/
theorem member_step_pres (mae : StateMap Event) (c : Conflicted)
    (t s v : String) (hc : (t, s) ∉ c.map (·.1))
    (acc acc2 : StateMap String × StateMap Event) (p : String × List Event)
    (hp : p ∈ StateMap.iter_members c)
    (hu : StateMap.get acc.1 t s = some v) (h : member_step mae acc p = some acc2) :
    StateMap.get acc2.1 t s = some v := by
  unfold member_step at h
  rcases hre : resolve_auth_events ("m.room.member", p.1) p.2 mae with _ | ev
  · simp only [hre] at h
    exact absurd h (by simp)
  · simp only [hre] at h
    rw [← Option.some.inj h]
    have hne : ("m.room.member", p.1) ≠ (t, s) := by
      intro hc2
      exact hc (hc2 ▸ mem_iter_members_key hp)
    exact (StateMap.get_insert_ne acc.1 "m.room.member" p.1 t s ev.event_id
      (fun h2 => hne h2.symm)).trans hu

/-- A remaining-slot step does not overwrite a slot outside the conflicted
map. -/
theorem nm_step_pres (ae : StateMap Event) (c : Conflicted)
    (t s v : String) (hc : (t, s) ∉ c.map (·.1))
    (acc acc2 : StateMap String) (p : (String × String) × List Event)
    (hp : p ∈ StateMap.iter_non_members c)
    (hu : StateMap.get acc t s = some v) (h : nm_step ae acc p = some acc2) :
    StateMap.get acc2 t s = some v := by
  unfold nm_step at h
  by_cases hck : StateMap.contains_key acc p.1.1 p.1.2 = true
  · rw [if_pos hck] at h
    rw [← Option.some.inj h]
    exact hu
  · rw [if_neg hck] at h
    rcases hre : resolve_normal_events p.2 ae with _ | ev
    · simp only [hre] at h
      exact absurd h (by simp)
    · simp only [hre] at h
      rw [← Option.some.inj h]
      have hne : (p.1.1, p.1.2) ≠ (t, s) := by
        intro hc2
        refine hc ?_
        have := mem_iter_non_members_key hp
        rwa [show p.1 = (p.1.1, p.1.2) from rfl, hc2] at this
      exact (StateMap.get_insert_ne acc p.1.1 p.1.2 t s ev.event_id
        (fun h2 => hne h2.symm)).trans hu

/-- C8: a slot present with the same value in every input map (each with
unique keys) survives state resolution unchanged. -/
theorem c8_unconflicted_preservation (state_sets : List (StateMap String))
    (em : EventMap) (t s v : String) (hne : state_sets ≠ [])
    (hnd : ∀ m ∈ state_sets, (m.map (·.1)).Nodup)
    (hall : ∀ m ∈ state_sets, StateMap.get m t s = some v) :
    ∀ r, resolve_state state_sets em = some r → StateMap.get r t s = some v := by
  obtain ⟨first, rest, rfl⟩ : ∃ f r, state_sets = f :: r := by
    cases state_sets with
    | nil => exact absurd rfl hne
    | cons f r => exact ⟨f, r, rfl⟩
  intro r hres
  unfold resolve_state at hres
  rcases hsm : split_maps em first rest with _ | uc
  · simp only [hsm] at hres
    exact absurd hres (by simp)
  obtain ⟨u, c⟩ := uc
  simp only [hsm] at hres
  obtain ⟨hu, hc⟩ := split_maps_pres em t s v first rest u c
    (hall first (List.mem_cons_self _ _))
    (fun m hm => value_eq_of_nodup_get m t s v (hnd m (List.mem_cons_of_mem _ hm))
      (hall m (List.mem_cons_of_mem _ hm)))
    hsm
  rcases hty : auth_types_union c with _ | types
  · simp only [hty] at hres
    exact absurd hres (by simp)
  simp only [hty] at hres
  rcases hbe : build_auth_events em u types with _ | ae0
  · simp only [hbe] at hres
    exact absurd hres (by simp)
  simp only [hbe] at hres
  rcases hpl : pl_stage c (u, ae0) with _ | acc1
  · simp only [hpl] at hres
    exact absurd hres (by simp)
  simp only [hpl] at hres
  have h1 : StateMap.get acc1.1 t s = some v :=
    pl_stage_pres c (u, ae0) acc1 t s v hc hu hpl
  rcases hjr : (StateMap.iter_join_rules c).foldlM (jr_step acc1.2) acc1 with _ | acc2
  · simp only [hjr] at hres
    exact absurd hres (by simp)
  simp only [hjr] at hres
  have h2 : StateMap.get acc2.1 t s = some v :=
    foldlM_option_inv_mem (jr_step acc1.2)
      (fun acc : StateMap String × StateMap Event => StateMap.get acc.1 t s = some v)
      (StateMap.iter_join_rules c)
      (fun a p a2 hp hPa ha => jr_step_pres acc1.2 c t s v hc a a2 p hp hPa ha)
      acc1 acc2 h1 hjr
  rcases hmb : (StateMap.iter_members c).foldlM (member_step acc2.2) acc2 with _ | acc3
  · simp only [hmb] at hres
    exact absurd hres (by simp)
  simp only [hmb] at hres
  have h3 : StateMap.get acc3.1 t s = some v :=
    foldlM_option_inv_mem (member_step acc2.2)
      (fun acc : StateMap String × StateMap Event => StateMap.get acc.1 t s = some v)
      (StateMap.iter_members c)
      (fun a p a2 hp hPa ha => member_step_pres acc2.2 c t s v hc a a2 p hp hPa ha)
      acc2 acc3 h2 hmb
  exact foldlM_option_inv_mem (nm_step acc3.2)
    (fun acc : StateMap String => StateMap.get acc t s = some v)
    (StateMap.iter_non_members c)
    (fun a p a2 hp hPa ha => nm_step_pres acc3.2 c t s v hc a a2 p hp hPa ha)
    acc3.1 r h3 hres

/-- C8, witness: a singleton input preserves its only slot. -/
theorem c8_witness :
    resolve_state [[(("m.room.create", ""), "$cr8")]] c10_em =
      some [(("m.room.create", ""), "$cr8")] ∧
    StateMap.get [(("m.room.create", ""), "$cr8")] "m.room.create" "" =
      some "$cr8" :=
  ⟨rfl,
    c8_unconflicted_preservation [[(("m.room.create", ""), "$cr8")]] c10_em
      "m.room.create" "" "$cr8" (by simp)
      (by
        intro m hm
        rcases List.mem_singleton.1 hm with rfl
        simp)
      (by
        intro m hm
        rcases List.mem_singleton.1 hm with rfl
        rfl)
      [(("m.room.create", ""), "$cr8")] rfl⟩

/-! ### Claim C7 — ordering and loop structure of `resolve_auth_events` -/

/-- The order the claim describes: ascending depth, ties broken by
descending lowercase SHA-1 hex digest of the event id. -/
def spec_rae_order (a b : Event) : Prop :=
  a.depth < b.depth ∨
    (a.depth = b.depth ∧ sha1_hexdigest b.event_id ≤ sha1_hexdigest a.event_id)

/-- The resolver's sort key comparison is transitive. -/
theorem order_le_trans : ∀ a b c : Event,
    order_le a b = true → order_le b c = true → order_le a c = true := by
  intro a b c hab hbc
  simp only [order_le, decide_eq_true_eq] at hab hbc ⊢
  rcases hab with h1 | ⟨h1, h2⟩ <;> rcases hbc with h3 | ⟨h3, h4⟩
  · exact Or.inl (by omega)
  · exact Or.inl (by omega)
  · exact Or.inl (by omega)
  · exact Or.inr ⟨by omega, le_trans h2 h4⟩

/-- The resolver's sort key comparison is total. -/
theorem order_le_total : ∀ a b : Event,
    (order_le a b || order_le b a) = true := by
  intro a b
  simp only [order_le, Bool.or_eq_true, decide_eq_true_eq]
  rcases lt_trichotomy (-(a.depth : Int)) (-(b.depth : Int)) with h | h | h
  · exact Or.inl (Or.inl h)
  · rcases le_total (sha1_hexdigest a.event_id) (sha1_hexdigest b.event_id) with h2 | h2
    · exact Or.inl (Or.inr ⟨h, h2⟩)
    · exact Or.inr (Or.inr ⟨h.symm, h2⟩)
  · exact Or.inr (Or.inl h)

/-- C7: on a non-empty candidate list, `resolve_auth_events` orders the
events into ascending depth with ties broken by descending SHA-1 hex digest
(a permutation of the input), takes the first as `prev`, and runs the
write-prev-then-check loop `rae_loop` on the remainder. -/
theorem c7_resolve_auth_events_order (key : String × String) (events : List Event)
    (auth_events : StateMap Event) (hne : events ≠ []) :
    ∃ f rest, (order_events events).reverse = f :: rest ∧
      (f :: rest).Perm events ∧
      (f :: rest).Pairwise spec_rae_order ∧
      resolve_auth_events key events auth_events = rae_loop key auth_events f rest := by
  have hperm : (order_events events).reverse.Perm events :=
    (List.reverse_perm _).trans (List.mergeSort_perm events order_le)
  rcases heq : (order_events events).reverse with _ | ⟨f, rest⟩
  · exfalso
    rw [heq] at hperm
    exact hne hperm.symm.eq_nil
  refine ⟨f, rest, rfl, heq ▸ hperm, ?_, ?_⟩
  · have hsorted : (List.mergeSort events order_le).Pairwise
        (fun a b => order_le a b = true) :=
      List.sorted_mergeSort order_le_trans order_le_total events
    have hrev : (order_events events).reverse.Pairwise spec_rae_order := by
      rw [List.pairwise_reverse]
      refine hsorted.imp ?_
      intro a b hab
      simp only [order_le, decide_eq_true_eq] at hab
      rcases hab with h | ⟨h, h2⟩
      · exact Or.inl (by omega)
      · exact Or.inr ⟨by omega, h2⟩
    rwa [heq] at hrev
  · unfold resolve_auth_events
    rw [heq]

/-- The candidate event of the C7 witness. -/
def c7_ev : Event := ⟨"@a:x", "m.x", none, "!r:x", "$c7", [], none, 1, []⟩

/-- C7, witness: the ordering and loop structure at a singleton candidate
list. -/
theorem c7_witness :
    ∃ f rest, (order_events [c7_ev]).reverse = f :: rest ∧
      (f :: rest).Perm [c7_ev] ∧
      (f :: rest).Pairwise spec_rae_order ∧
      resolve_auth_events ("m.room.member", "@a:x") [c7_ev] [] =
        rae_loop ("m.room.member", "@a:x") [] f rest :=
  c7_resolve_auth_events_order ("m.room.member", "@a:x") [c7_ev] [] (by simp)

/-! ### Claim C9 — correctness of the Kahn traversal -/

theorem lookupKey_eraseKey_ne {κ α : Type} [BEq κ] [LawfulBEq κ] [DecidableEq κ]
    (l : List (κ × α)) (k k' : κ) (h : k' ≠ k) :
    lookupKey (eraseKey l k) k' = lookupKey l k' := by
  induction l with
  | nil => rw [eraseKey_nil]
  | cons e rest ih =>
    rw [eraseKey_cons]
    by_cases he : e.1 = k
    · rw [if_pos he, lookupKey_cons,
        if_neg (fun hc : e.1 = k' => h (hc.symm.trans he))]
    · rw [if_neg he, lookupKey_cons, lookupKey_cons, ih]

theorem lookupKey_eraseKey_self {κ α : Type} [BEq κ] [LawfulBEq κ] [DecidableEq κ]
    (l : List (κ × α)) (k : κ) (hnd : (l.map (·.1)).Nodup) :
    lookupKey (eraseKey l k) k = none := by
  induction l with
  | nil => rw [eraseKey_nil, lookupKey_nil]
  | cons e rest ih =>
    rw [eraseKey_cons]
    by_cases he : e.1 = k
    · rw [if_pos he]
      rcases hg : lookupKey rest k with _ | v
      · rfl
      · exfalso
        have : k ∈ rest.map (·.1) := lookupKey_mem_keys hg
        rw [← he] at this
        exact (List.nodup_cons.1 (by simpa using hnd)).1 this
    · rw [if_neg he, lookupKey_cons, if_neg he]
      exact ih (List.nodup_cons.1 (by simpa using hnd)).2

theorem keys_eraseKey_sublist {κ α : Type} [BEq κ] [LawfulBEq κ] [DecidableEq κ]
    (l : List (κ × α)) (k : κ) :
    ((eraseKey l k).map (·.1)).Sublist (l.map (·.1)) := by
  induction l with
  | nil => rw [eraseKey_nil]
  | cons e rest ih =>
    rw [eraseKey_cons]
    by_cases he : e.1 = k
    · rw [if_pos he]
      exact (List.sublist_cons_self _ _)
    · rw [if_neg he]
      simpa using ih.cons₂ e.1

theorem keys_eraseKey_nodup {κ α : Type} [BEq κ] [LawfulBEq κ] [DecidableEq κ]
    (l : List (κ × α)) (k : κ) (hnd : (l.map (·.1)).Nodup) :
    ((eraseKey l k).map (·.1)).Nodup :=
  (keys_eraseKey_sublist l k).nodup hnd

theorem eraseKey_length {κ α : Type} [BEq κ] [LawfulBEq κ] [DecidableEq κ]
    (l : List (κ × α)) (k : κ) (v : α) (h : lookupKey l k = some v) :
    (eraseKey l k).length + 1 = l.length := by
  induction l with
  | nil => rw [lookupKey_nil] at h; exact absurd h (by simp)
  | cons e rest ih =>
    rw [eraseKey_cons]
    by_cases he : e.1 = k
    · rw [if_pos he]
      simp
    · rw [lookupKey_cons, if_neg he] at h
      rw [if_neg he]
      simpa using ih h

theorem keys_insertKey_nodup {κ α : Type} [BEq κ] [LawfulBEq κ] [DecidableEq κ]
    (l : List (κ × α)) (k : κ) (v : α) (hnd : (l.map (·.1)).Nodup) :
    ((insertKey l k v).map (·.1)).Nodup := by
  induction l with
  | nil => simp [insertKey_nil]
  | cons e rest ih =>
    rw [insertKey_cons]
    by_cases he : e.1 = k
    · rw [if_pos he]
      rw [← he]
      simpa using hnd
    · rw [if_neg he]
      simp only [List.map_cons, List.nodup_cons] at hnd ⊢
      refine ⟨?_, ih hnd.2⟩
      intro hc
      rcases keys_insertKey_subset rest k v hc with h2 | h2
      · exact hnd.1 h2
      · exact he h2

theorem insertKey_length_of_mem {κ α : Type} [BEq κ] [LawfulBEq κ] [DecidableEq κ]
    (l : List (κ × α)) (k : κ) (v w : α) (h : lookupKey l k = some w) :
    (insertKey l k v).length = l.length := by
  induction l with
  | nil => rw [lookupKey_nil] at h; exact absurd h (by simp)
  | cons e rest ih =>
    rw [insertKey_cons]
    by_cases he : e.1 = k
    · rw [if_pos he]
      simp
    · rw [lookupKey_cons, if_neg he] at h
      rw [if_neg he]
      simpa using ih h

/-- Unique-key association lists bind each key to one value. -/
theorem value_eq_of_nodup_lookupKey {κ α : Type} [BEq κ] [LawfulBEq κ] [DecidableEq κ]
    (l : List (κ × α)) (k : κ) (v : α) :
    (l.map (·.1)).Nodup → lookupKey l k = some v →
    ∀ en ∈ l, en.1 = k → en.2 = v := by
  induction l with
  | nil => intro _ _ en hen; simp at hen
  | cons e rest ih =>
    intro hnd hget en hen hkey
    rw [lookupKey_cons] at hget
    rcases List.mem_cons.1 hen with rfl | hen2
    · rw [if_pos hkey] at hget
      exact Option.some.inj hget
    · by_cases he : e.1 = k
      · exfalso
        have hmem : k ∈ rest.map (·.1) := List.mem_map.2 ⟨en, hen2, hkey⟩
        rw [← he] at hmem
        exact (List.nodup_cons.1 (by simpa using hnd)).1 hmem
      · rw [if_neg he] at hget
        exact ih (List.nodup_cons.1 (by simpa using hnd)).2 hget en hen2 hkey

/-- The ids of the events of `em` that list `p` among their predecessors
(the members of the ingestion's `parents[p]` set). -/
def childrenOf (em : EventMap) (p : String) : List String :=
  (em.filter (fun en => en.2.prev_events.contains p)).map (·.1)

/-- The children of `p` not yet popped. -/
def unpopped (em : EventMap) (acc : List String) (p : String) : List String :=
  (childrenOf em p).filter (fun c => !(acc.contains c))

theorem childrenOf_subset_keys (em : EventMap) (p : String) :
    ∀ c ∈ childrenOf em p, c ∈ em.map (·.1) := by
  intro c hc
  obtain ⟨en, hen, rfl⟩ := List.mem_map.1 hc
  exact List.mem_map.2 ⟨en, (List.mem_filter.1 hen).1, rfl⟩

theorem childrenOf_nodup (em : EventMap) (p : String)
    (hnd : (em.map (·.1)).Nodup) : (childrenOf em p).Nodup := by
  have hsub : (childrenOf em p).Sublist (em.map (·.1)) := by
    unfold childrenOf
    exact (List.filter_sublist em).map (·.1)
  exact hsub.nodup hnd

theorem mem_childrenOf (em : EventMap) (p c : String) :
    c ∈ childrenOf em p ↔ ∃ en ∈ em, en.1 = c ∧ p ∈ en.2.prev_events := by
  unfold childrenOf
  constructor
  · intro h
    obtain ⟨en, hen, rfl⟩ := List.mem_map.1 h
    obtain ⟨hmem, hcont⟩ := List.mem_filter.1 hen
    exact ⟨en, hmem, rfl, by simpa using hcont⟩
  · intro ⟨en, hmem, hc, hp⟩
    exact List.mem_map.2 ⟨en, List.mem_filter.2 ⟨hmem, by simpa using hp⟩, hc⟩

/-- With unique ids, membership of `z` among `p`'s children is exactly `p`
being a predecessor of `z`'s event. -/
theorem mem_childrenOf_iff (em : EventMap) (hnd : (em.map (·.1)).Nodup)
    (z : String) (ev : Event) (hz : lookupStr em z = some ev) (p : String) :
    z ∈ childrenOf em p ↔ p ∈ ev.prev_events := by
  rw [mem_childrenOf]
  constructor
  · intro ⟨en, hmem, hc, hp⟩
    have := value_eq_of_nodup_lookupKey em z ev hnd hz en hmem hc
    rwa [← this]
  · intro hp
    exact ⟨(z, ev), lookupKey_mem hz, rfl, hp⟩

theorem unpopped_eq_nil_sub (em : EventMap) (acc : List String) (p : String)
    (h : unpopped em acc p = []) : ∀ c ∈ childrenOf em p, c ∈ acc := by
  intro c hc
  have h2 := List.filter_eq_nil_iff.1 h c hc
  simpa using h2

/-- Removing one surviving member of a duplicate-free list from the filter's
allowance decreases the count by one. -/
theorem filter_length_cons_mem (l : List String) (hnd : l.Nodup) (z : String)
    (hz : z ∈ l) (acc : List String) (hzacc : z ∉ acc) :
    (l.filter (fun c => !(acc.contains c))).length =
      (l.filter (fun c => !((z :: acc).contains c))).length + 1 := by
  induction l with
  | nil => simp at hz
  | cons a rest ih =>
    rcases List.mem_cons.1 hz with rfl | hz2
    · have hza : (rest.filter (fun c => !(acc.contains c))) =
          (rest.filter (fun c => !((z :: acc).contains c))) := by
        refine List.filter_congr ?_
        intro c hc
        have hcz : c ≠ z := by
          intro hc2
          exact (List.nodup_cons.1 hnd).1 (hc2 ▸ hc)
        simp [hcz]
      rw [List.filter_cons_of_pos (by simpa using hzacc),
        List.filter_cons_of_neg (by simp)]
      rw [hza]
      simp
    · have ihr := ih (List.nodup_cons.1 hnd).2 hz2
      have haz : a ≠ z := by
        intro hc
        exact (List.nodup_cons.1 hnd).1 (hc ▸ hz2)
      by_cases ha : a ∈ acc
      · rw [List.filter_cons_of_neg (by simpa using ha),
          List.filter_cons_of_neg (by simp [ha])]
        exact ihr
      · rw [List.filter_cons_of_pos (by simpa using ha),
          List.filter_cons_of_pos (by simp [ha, haz])]
        simp only [List.length_cons]
        omega

/-- A non-empty list of strings has a rank-maximal member. -/
theorem exists_max_rank (l : List String) (hne : l ≠ []) (rank : String → Nat) :
    ∃ m ∈ l, ∀ x ∈ l, rank x ≤ rank m := by
  induction l with
  | nil => exact absurd rfl hne
  | cons a rest ih =>
    rcases rest with _ | ⟨b, rest2⟩
    · exact ⟨a, List.mem_singleton.2 rfl, by
        intro x hx
        rcases List.mem_singleton.1 hx with rfl
        exact le_refl _⟩
    · obtain ⟨m, hm, hmax⟩ := ih (by simp)
      by_cases hcmp : rank a ≤ rank m
      · refine ⟨m, List.mem_cons_of_mem _ hm, ?_⟩
        intro x hx
        rcases List.mem_cons.1 hx with rfl | hx2
        · exact hcmp
        · exact hmax x hx2
      · refine ⟨a, List.mem_cons_self _ _, ?_⟩
        intro x hx
        rcases List.mem_cons.1 hx with rfl | hx2
        · exact le_refl _
        · exact le_trans (hmax x hx2) (le_of_not_le hcmp)

/-- Invariant of the predecessor-decrement fold inside one Kahn pop.
`accp` is the popped list including the event just popped; `ps` are the
still-unprocessed predecessors, whose pending decrement accounts for the +1
offset in the recorded counts. -/
structure InnerInv (em : EventMap) (accp : List String) (ps : List String)
    (adj : List (String × Nat)) (zs : List String) : Prop where
  adjMem : ∀ p n, lookupStr adj p = some n → p ∈ em.map (·.1)
  adjCount : ∀ p n, lookupStr adj p = some n →
    n = (unpopped em accp p).length + (if p ∈ ps then 1 else 0)
  posFree : ∀ p n, lookupStr adj p = some n → 0 < n → p ∉ accp ∧ p ∉ zs
  nodup : (accp ++ zs).Nodup
  zMem : ∀ q ∈ zs, q ∈ em.map (·.1)
  zChildPopped : ∀ q ∈ zs, ∀ en ∈ em, q ∈ en.2.prev_events → en.1 ∈ accp
  pending : ∀ p, p ∈ em.map (·.1) → p ∉ accp → p ∉ zs →
    ∃ n, lookupStr adj p = some n ∧ (p ∈ ps ∨ 0 < n)
  adjKeys : (adj.map (·.1)).Nodup

/-- One predecessor decrement preserves the inner invariant and the summed
sizes. -/
theorem process_prev_inv (em : EventMap) (accp : List String)
    (p0 : String) (ps' : List String) (adj : List (String × Nat)) (zs : List String)
    (hnotin : p0 ∉ ps')
    (hinv : InnerInv em accp (p0 :: ps') adj zs) :
    InnerInv em accp ps' (process_prev (adj, zs) p0).1 (process_prev (adj, zs) p0).2 ∧
    (process_prev (adj, zs) p0).1.length + (process_prev (adj, zs) p0).2.length ≤
      adj.length + zs.length := by
  rcases hl : lookupStr adj p0 with _ | i
  · have hres : process_prev (adj, zs) p0 = (adj, zs) := by
      simp only [process_prev, hl]
    rw [hres]
    refine ⟨⟨hinv.adjMem, ?_, hinv.posFree, hinv.nodup, hinv.zMem,
      hinv.zChildPopped, ?_, hinv.adjKeys⟩, le_refl _⟩
    · intro q n h
      have hq : q ≠ p0 := by
        intro hc
        rw [hc, hl] at h
        exact absurd h (by simp)
      have := hinv.adjCount q n h
      rwa [if_congr (Iff.intro
        (fun hm => (List.mem_cons.1 hm).resolve_left hq)
        (fun hm => List.mem_cons_of_mem _ hm)) rfl rfl] at this
    · intro q hqm hqa hqz
      obtain ⟨n, hn, hor⟩ := hinv.pending q hqm hqa hqz
      have hq : q ≠ p0 := by
        intro hc
        rw [hc, hl] at hn
        exact absurd hn (by simp)
      exact ⟨n, hn, hor.imp_left (fun hm => (List.mem_cons.1 hm).resolve_left hq)⟩
  · have hcount := hinv.adjCount p0 i hl
    rw [if_pos (List.mem_cons_self _ _)] at hcount
    have hipos : 0 < i := by omega
    obtain ⟨hp0a, hp0z⟩ := hinv.posFree p0 i hl hipos
    have hp0em : p0 ∈ em.map (·.1) := hinv.adjMem p0 i hl
    by_cases hz : i - 1 = 0
    · have hupc : (unpopped em accp p0).length = 0 := by omega
      have hres : process_prev (adj, zs) p0 = (eraseKey adj p0, p0 :: zs) := by
        simp only [process_prev, hl, hz, if_pos]
      rw [hres]
      have herase : ∀ q, q ≠ p0 →
          lookupStr (eraseKey adj p0) q = lookupStr adj q := by
        intro q hq
        rw [lookupStr_eq_lookupKey, lookupStr_eq_lookupKey]
        exact lookupKey_eraseKey_ne adj p0 q hq
      have herase0 : lookupStr (eraseKey adj p0) p0 = none := by
        rw [lookupStr_eq_lookupKey]
        exact lookupKey_eraseKey_self adj p0 hinv.adjKeys
      have hqne : ∀ {q : String} {n : Nat},
          lookupStr (eraseKey adj p0) q = some n → q ≠ p0 := by
        intro q n h hc
        rw [hc, herase0] at h
        exact absurd h (by simp)
      refine ⟨⟨?_, ?_, ?_, ?_, ?_, ?_, ?_, ?_⟩, ?_⟩
      · intro q n h
        have h2 : lookupStr adj q = some n := by
          rw [← herase q (hqne h)]
          exact h
        exact hinv.adjMem q n h2
      · intro q n h
        have hq := hqne h
        have h2 : lookupStr adj q = some n := (herase q hq).symm.trans h
        have := hinv.adjCount q n h2
        rwa [if_congr (Iff.intro
          (fun hm => (List.mem_cons.1 hm).resolve_left hq)
          (fun hm => List.mem_cons_of_mem _ hm)) rfl rfl] at this
      · intro q n h hpos
        have hq := hqne h
        have h2 : lookupStr adj q = some n := (herase q hq).symm.trans h
        obtain ⟨ha, hzs⟩ := hinv.posFree q n h2 hpos
        exact ⟨ha, by
          intro hc
          rcases List.mem_cons.1 hc with hc2 | hc2
          · exact hq hc2
          · exact hzs hc2⟩
      · rw [List.nodup_middle]
        refine List.nodup_cons.2 ⟨?_, hinv.nodup⟩
        intro hc
        rcases List.mem_append.1 hc with hc2 | hc2
        · exact hp0a hc2
        · exact hp0z hc2
      · intro q hq
        rcases List.mem_cons.1 hq with rfl | hq2
        · exact hp0em
        · exact hinv.zMem q hq2
      · intro q hq en hen hprev
        rcases List.mem_cons.1 hq with rfl | hq2
        · have hchild : en.1 ∈ childrenOf em q :=
            (mem_childrenOf em q en.1).2 ⟨en, hen, rfl, hprev⟩
          exact unpopped_eq_nil_sub em accp q
            (List.length_eq_zero.1 hupc) en.1 hchild
        · exact hinv.zChildPopped q hq2 en hen hprev
      · intro q hqm hqa hqz
        have hq : q ≠ p0 := by
          intro hc
          exact hqz (hc ▸ List.mem_cons_self _ _)
        obtain ⟨n, hn, hor⟩ := hinv.pending q hqm hqa
          (fun hc => hqz (List.mem_cons_of_mem _ hc))
        refine ⟨n, (herase q hq).trans hn, ?_⟩
        exact hor.imp_left (fun hm => (List.mem_cons.1 hm).resolve_left hq)
      · rw [show (eraseKey adj p0).map (·.1) =
          (eraseKey adj p0).map (fun x => x.1) from rfl]
        exact keys_eraseKey_nodup adj p0 hinv.adjKeys
      · have hlen := eraseKey_length adj p0 i
          (by rw [← lookupStr_eq_lookupKey]; exact hl)
        show (eraseKey adj p0).length + (p0 :: zs).length ≤ adj.length + zs.length
        simp only [List.length_cons]
        omega
    · have hres : process_prev (adj, zs) p0 = (insertKey adj p0 (i - 1), zs) := by
        simp only [process_prev, hl, hz, if_neg, if_false]
      rw [hres]
      have hself : lookupStr (insertKey adj p0 (i - 1)) p0 = some (i - 1) := by
        rw [lookupStr_eq_lookupKey]
        exact lookupKey_insertKey_self adj p0 (i - 1)
      have hother : ∀ q, q ≠ p0 →
          lookupStr (insertKey adj p0 (i - 1)) q = lookupStr adj q := by
        intro q hq
        rw [lookupStr_eq_lookupKey, lookupStr_eq_lookupKey]
        exact lookupKey_insertKey_ne adj p0 q (i - 1) hq
      refine ⟨⟨?_, ?_, ?_, hinv.nodup, hinv.zMem, hinv.zChildPopped, ?_, ?_⟩, ?_⟩
      · intro q n h
        by_cases hq : q = p0
        · exact hq ▸ hp0em
        · have h2 : lookupStr adj q = some n := by
            rw [← hother q hq]
            exact h
          exact hinv.adjMem q n h2
      · intro q n h
        by_cases hq : q = p0
        · subst hq
          rw [hself] at h
          obtain rfl := (Option.some.inj h).symm
          rw [if_neg (by exact fun hm => hnotin hm)]
          omega
        · have h2 : lookupStr adj q = some n := (hother q hq).symm.trans h
          have := hinv.adjCount q n h2
          rwa [if_congr (Iff.intro
            (fun hm => (List.mem_cons.1 hm).resolve_left hq)
            (fun hm => List.mem_cons_of_mem _ hm)) rfl rfl] at this
      · intro q n h hpos
        by_cases hq : q = p0
        · subst hq
          exact ⟨hp0a, hp0z⟩
        · have h2 : lookupStr adj q = some n := by
            rw [← hother q hq]
            exact h
          exact hinv.posFree q n h2 hpos
      · intro q hqm hqa hqz
        by_cases hq : q = p0
        · subst hq
          exact ⟨i - 1, hself, Or.inr (by omega)⟩
        · obtain ⟨n, hn, hor⟩ := hinv.pending q hqm hqa hqz
          refine ⟨n, (hother q hq).trans hn, ?_⟩
          exact hor.imp_left (fun hm => (List.mem_cons.1 hm).resolve_left hq)
      · rw [show (insertKey adj p0 (i - 1)).map (·.1) =
          (insertKey adj p0 (i - 1)).map (fun x => x.1) from rfl]
        exact keys_insertKey_nodup adj p0 (i - 1) hinv.adjKeys
      · have hlen := insertKey_length_of_mem adj p0 (i - 1) i
          (by rw [← lookupStr_eq_lookupKey]; exact hl)
        show (insertKey adj p0 (i - 1)).length + zs.length ≤ adj.length + zs.length
        omega

/-- The whole predecessor fold discharges the pending offsets. -/
theorem process_prevs_inv (em : EventMap) (accp : List String) :
    ∀ (ps : List String) (adj : List (String × Nat)) (zs : List String),
    ps.Nodup → InnerInv em accp ps adj zs →
    InnerInv em accp [] (ps.foldl process_prev (adj, zs)).1
      (ps.foldl process_prev (adj, zs)).2 ∧
    (ps.foldl process_prev (adj, zs)).1.length +
      (ps.foldl process_prev (adj, zs)).2.length ≤ adj.length + zs.length := by
  intro ps
  induction ps with
  | nil =>
    intro adj zs _ hinv
    rw [List.foldl_nil]
    exact ⟨hinv, le_refl _⟩
  | cons p0 ps' ih =>
    intro adj zs hnd hinv
    rw [List.foldl_cons]
    obtain ⟨hinv2, hlen⟩ := process_prev_inv em accp p0 ps' adj zs
      (List.nodup_cons.1 hnd).1 hinv
    obtain ⟨hinv3, hlen2⟩ := ih (process_prev (adj, zs) p0).1
      (process_prev (adj, zs) p0).2 (List.nodup_cons.1 hnd).2 hinv2
    exact ⟨hinv3, le_trans hlen2 hlen⟩

/-- Outer invariant of the Kahn traversal loop: `ordered` is a duplicate-free
topologically closed prefix of the output, `zeroes` queues exactly the events
whose children are all popped, and `adjacents` records for every unpopped,
unqueued event its number of unpopped children. -/
structure KahnInv (em : EventMap) (st : KahnState) : Prop where
  nodup : (st.ordered ++ st.zeroes).Nodup
  subOrd : ∀ i ∈ st.ordered, i ∈ em.map (·.1)
  subZ : ∀ i ∈ st.zeroes, i ∈ em.map (·.1)
  childPopped : ∀ i, (i ∈ st.ordered ∨ i ∈ st.zeroes) →
    ∀ en ∈ em, i ∈ en.2.prev_events → en.1 ∈ st.ordered
  topo : ∀ l1 i l2, st.ordered = l1 ++ i :: l2 →
    ∀ ev, lookupStr em i = some ev →
    ∀ p ∈ ev.prev_events, p ∈ em.map (·.1) → p ∉ i :: l2
  adjMem : ∀ p n, lookupStr st.adjacents p = some n → p ∈ em.map (·.1)
  adjCount : ∀ p n, lookupStr st.adjacents p = some n →
    n = (unpopped em st.ordered p).length
  posFree : ∀ p n, lookupStr st.adjacents p = some n → 0 < n →
    p ∉ st.ordered ∧ p ∉ st.zeroes
  pending : ∀ p, p ∈ em.map (·.1) → p ∉ st.ordered → p ∉ st.zeroes →
    ∃ n, lookupStr st.adjacents p = some n ∧ 0 < n
  adjKeys : (st.adjacents.map (·.1)).Nodup

/-- Popping the head of the queue and folding the predecessor decrements
preserves the outer invariant and strictly shrinks the measure. -/
theorem kahn_pop_inv (em : EventMap) (rank : String → Nat)
    (hemnd : (em.map (·.1)).Nodup)
    (hrank : ∀ en ∈ em, ∀ p ∈ en.2.prev_events, p ∈ em.map (·.1) →
      rank p < rank en.1)
    (st : KahnState) (z : String) (rest : List String)
    (hzs : st.zeroes = z :: rest)
    (ev : Event) (hz : lookupStr em z = some ev)
    (hprevnd : ev.prev_events.Nodup)
    (hinv : KahnInv em st) :
    KahnInv em ⟨z :: st.ordered,
      (ev.prev_events.foldl process_prev (st.adjacents, rest)).2,
      (ev.prev_events.foldl process_prev (st.adjacents, rest)).1⟩ ∧
    (ev.prev_events.foldl process_prev (st.adjacents, rest)).1.length +
      (ev.prev_events.foldl process_prev (st.adjacents, rest)).2.length + 1 ≤
      st.adjacents.length + st.zeroes.length := by
  have hzin : z ∈ st.zeroes := hzs ▸ List.mem_cons_self _ _
  have hzem : z ∈ em.map (·.1) := hinv.subZ z hzin
  have hznotord : z ∉ st.ordered := by
    intro hc
    exact (List.nodup_append.1 hinv.nodup).2.2 hc hzin
  have hzmem : (z, ev) ∈ em := lookupKey_mem
    (by rw [← lookupStr_eq_lookupKey]; exact hz)
  have hnd0 : ((z :: st.ordered) ++ rest).Nodup := by
    have h := hinv.nodup
    rw [hzs, List.nodup_middle] at h
    exact h
  have hinner0 : InnerInv em (z :: st.ordered) ev.prev_events st.adjacents rest := by
    refine ⟨hinv.adjMem, ?_, ?_, hnd0, ?_, ?_, ?_, hinv.adjKeys⟩
    · intro p n h
      have hc := hinv.adjCount p n h
      by_cases hp : p ∈ ev.prev_events
      · rw [if_pos hp]
        have hzc : z ∈ childrenOf em p := (mem_childrenOf_iff em hemnd z ev hz p).2 hp
        have heq : (unpopped em st.ordered p).length =
            (unpopped em (z :: st.ordered) p).length + 1 :=
          filter_length_cons_mem (childrenOf em p) (childrenOf_nodup em p hemnd)
            z hzc st.ordered hznotord
        omega
      · rw [if_neg hp, Nat.add_zero]
        have hznotchild : z ∉ childrenOf em p := fun hc2 =>
          hp ((mem_childrenOf_iff em hemnd z ev hz p).1 hc2)
        have heq : unpopped em (z :: st.ordered) p = unpopped em st.ordered p := by
          unfold unpopped
          refine List.filter_congr ?_
          intro c hcmem
          have hcz : c ≠ z := fun h2 => hznotchild (h2 ▸ hcmem)
          simp [hcz]
        rw [heq]
        exact hc
    · intro p n h hpos
      obtain ⟨ha, hzz⟩ := hinv.posFree p n h hpos
      refine ⟨?_, ?_⟩
      · intro hc
        rcases List.mem_cons.1 hc with rfl | hc2
        · exact hzz hzin
        · exact ha hc2
      · intro hc
        exact hzz (hzs ▸ List.mem_cons_of_mem _ hc)
    · intro q hq
      exact hinv.subZ q (hzs ▸ List.mem_cons_of_mem _ hq)
    · intro q hq en hen hprev
      have hqz : q ∈ st.zeroes := hzs ▸ List.mem_cons_of_mem _ hq
      exact List.mem_cons_of_mem _ (hinv.childPopped q (Or.inr hqz) en hen hprev)
    · intro p hpm hpa hpz
      have hpo : p ∉ st.ordered := fun hc => hpa (List.mem_cons_of_mem _ hc)
      have hpzz : p ∉ st.zeroes := by
        rw [hzs]
        intro hc
        rcases List.mem_cons.1 hc with rfl | hc2
        · exact hpa (List.mem_cons_self _ _)
        · exact hpz hc2
      obtain ⟨n, hn, hpos⟩ := hinv.pending p hpm hpo hpzz
      exact ⟨n, hn, Or.inr hpos⟩
  obtain ⟨hfin, hlen⟩ := process_prevs_inv em (z :: st.ordered) ev.prev_events
    st.adjacents rest hprevnd hinner0
  constructor
  · refine ⟨hfin.nodup, ?_, hfin.zMem, ?_, ?_, hfin.adjMem, ?_, ?_, ?_, hfin.adjKeys⟩
    · intro i hi
      rcases List.mem_cons.1 hi with rfl | hi2
      · exact hzem
      · exact hinv.subOrd i hi2
    · intro i hi en hen hprev
      rcases hi with hi | hi
      · rcases List.mem_cons.1 hi with rfl | hi2
        · exact List.mem_cons_of_mem _ (hinv.childPopped i (Or.inr hzin) en hen hprev)
        · exact List.mem_cons_of_mem _ (hinv.childPopped i (Or.inl hi2) en hen hprev)
      · exact hfin.zChildPopped i hi en hen hprev
    · intro l1 i l2 hsplit ev2 hev2 p hp hpm
      rcases l1 with _ | ⟨w, l1p⟩
      · rw [List.nil_append] at hsplit
        injection hsplit with h1 h2
        subst h1
        subst h2
        rw [hz] at hev2
        obtain rfl := Option.some.inj hev2
        intro hc
        rcases List.mem_cons.1 hc with rfl | hc2
        · exact lt_irrefl _ (hrank (p, ev) hzmem p hp hpm)
        · exact hznotord (hinv.childPopped p (Or.inl hc2) (z, ev) hzmem hp)
      · rw [List.cons_append] at hsplit
        injection hsplit with h1 h2
        exact hinv.topo l1p i l2 h2 ev2 hev2 p hp hpm
    · intro p n h
      have hc := hfin.adjCount p n h
      simpa using hc
    · intro p n h hpos
      exact hfin.posFree p n h hpos
    · intro p hpm hpa hpz
      obtain ⟨n, hn, hor⟩ := hfin.pending p hpm hpa hpz
      exact ⟨n, hn, hor.resolve_left (by simp)⟩
  · rw [hzs]
    simp only [List.length_cons]
    omega

/-- With fuel at least the measure, the Kahn loop terminates without the
`event_map[event_id]` panic, in an invariant state with an empty queue. -/
theorem kahn_loop_inv (em : EventMap)
    (hprevnd : ∀ en ∈ em, en.2.prev_events.Nodup)
    (rank : String → Nat)
    (hemnd : (em.map (·.1)).Nodup)
    (hrank : ∀ en ∈ em, ∀ p ∈ en.2.prev_events, p ∈ em.map (·.1) →
      rank p < rank en.1) :
    ∀ (fuel : Nat) (st : KahnState), KahnInv em st →
    st.adjacents.length + st.zeroes.length ≤ fuel →
    ∃ stf, kahn_loop em fuel st = some stf ∧ KahnInv em stf ∧ stf.zeroes = [] := by
  intro fuel
  induction fuel with
  | zero =>
    intro st hinv hle
    have hz : st.zeroes = [] := List.length_eq_zero.1 (by omega)
    exact ⟨st, rfl, hinv, hz⟩
  | succ f ih =>
    intro st hinv hle
    rcases hzs : st.zeroes with _ | ⟨z, rest⟩
    · refine ⟨st, ?_, hinv, hzs⟩
      simp only [kahn_loop, hzs]
    · have hzin : z ∈ st.zeroes := hzs ▸ List.mem_cons_self _ _
      have hzem : z ∈ em.map (·.1) := hinv.subZ z hzin
      obtain ⟨ev, hz⟩ : ∃ v, lookupKey em z = some v :=
        lookupKey_isSome_of_mem_keys hzem
      have hzl : lookupStr em z = some ev := by
        rw [lookupStr_eq_lookupKey]
        exact hz
      have hznd : ev.prev_events.Nodup := hprevnd (z, ev) (lookupKey_mem hz)
      obtain ⟨hinv2, hlen2⟩ :=
        kahn_pop_inv em rank hemnd hrank st z rest hzs ev hzl hznd hinv
      rcases hpreq : ev.prev_events.foldl process_prev (st.adjacents, rest)
        with ⟨adjf, zsf⟩
      rw [hpreq] at hinv2 hlen2
      have hstep : kahn_loop em (f + 1) st =
          kahn_loop em f ⟨z :: st.ordered, zsf, adjf⟩ := by
        simp only [kahn_loop, hzs, hzl, hpreq]
      have hmeas : (⟨z :: st.ordered, zsf, adjf⟩ : KahnState).adjacents.length +
          (⟨z :: st.ordered, zsf, adjf⟩ : KahnState).zeroes.length ≤ f := by
        have hle2 : st.adjacents.length + st.zeroes.length ≤ f + 1 := hle
        have hlen3 : adjf.length + zsf.length + 1 ≤
            st.adjacents.length + st.zeroes.length := hlen2
        show adjf.length + zsf.length ≤ f
        omega
      obtain ⟨stf, hloop, hinvf, hzf⟩ := ih ⟨z :: st.ordered, zsf, adjf⟩ hinv2 hmeas
      exact ⟨stf, hstep ▸ hloop, hinvf, hzf⟩

/-- In an invariant state with an empty queue every event of the map has been
popped: otherwise the rank-maximal unpopped event would still have an unpopped
child, which the rank hypothesis forbids. -/
theorem kahn_all_popped (em : EventMap) (rank : String → Nat)
    (hrank : ∀ en ∈ em, ∀ p ∈ en.2.prev_events, p ∈ em.map (·.1) →
      rank p < rank en.1)
    (st : KahnState) (hinv : KahnInv em st) (hz : st.zeroes = []) :
    ∀ i ∈ em.map (·.1), i ∈ st.ordered := by
  by_contra hcon
  push_neg at hcon
  obtain ⟨i0, hi0, hi0n⟩ := hcon
  have hSne : (em.map (·.1)).filter (fun x => !(st.ordered.contains x)) ≠ [] := by
    intro hnil
    have := List.filter_eq_nil_iff.1 hnil i0 hi0
    simp at this
    exact hi0n this
  obtain ⟨m, hmS, hmax⟩ := exists_max_rank _ hSne rank
  have hm := List.mem_filter.1 hmS
  have hm1 : m ∈ em.map (·.1) := hm.1
  have hm2 : m ∉ st.ordered := by simpa using hm.2
  have hm3 : m ∉ st.zeroes := by
    rw [hz]
    simp
  obtain ⟨n, hn, hpos⟩ := hinv.pending m hm1 hm2 hm3
  have hcnt := hinv.adjCount m n hn
  have hune : unpopped em st.ordered m ≠ [] := by
    intro hnil
    rw [hnil] at hcnt
    simp at hcnt
    omega
  obtain ⟨c, hc⟩ := List.exists_mem_of_ne_nil _ hune
  have hcf := List.mem_filter.1 hc
  have hcch : c ∈ childrenOf em m := hcf.1
  have hcord : c ∉ st.ordered := by simpa using hcf.2
  have hcem : c ∈ em.map (·.1) := childrenOf_subset_keys em m c hcch
  have hcS : c ∈ (em.map (·.1)).filter (fun x => !(st.ordered.contains x)) :=
    List.mem_filter.2 ⟨hcem, by simpa using hcord⟩
  obtain ⟨en, hen, rfl, hmprev⟩ := (mem_childrenOf em m c).1 hcch
  have hlt : rank m < rank en.1 := hrank en hen m hmprev hm1
  have hle := hmax en.1 hcS
  omega

/-- Looking up the initial adjacency list, which maps every event id to its
parent count. -/
theorem lookupKey_counts_map (em : EventMap) (g : String → Nat) (p : String) :
    lookupKey (em.map (fun e => (e.1, g e.1))) p =
      if p ∈ em.map (·.1) then some (g p) else none := by
  induction em with
  | nil => simp [lookupKey_nil]
  | cons e rest ih =>
    simp only [List.map_cons, lookupKey_cons]
    by_cases he : e.1 = p
    · simp [he]
    · have hep : ¬ p = e.1 := fun h => he h.symm
      simp only [he, if_false, ih]
      have hmemiff : (p ∈ e.1 :: List.map (fun x => x.1) rest) ↔
          p ∈ List.map (fun x => x.1) rest := by
        simp [List.mem_cons, hep]
      rw [if_congr hmemiff rfl rfl]

/-- With no event popped, the unpopped children of `p` are all its children. -/
theorem unpopped_nil (em : EventMap) (q : String) :
    unpopped em [] q = childrenOf em q := by
  unfold unpopped
  simp

/-- The starting state of `get_ordered_fast` satisfies the Kahn invariant,
given correct parent counts and extremities that are exactly the childless
events. -/
theorem kahn_init_inv (em : EventMap) (extremities : List String)
    (parents_count : String → Nat)
    (hemnd : (em.map (·.1)).Nodup)
    (hpc : ∀ p ∈ em.map (·.1), parents_count p = (childrenOf em p).length)
    (hext1 : ∀ i ∈ extremities, i ∈ em.map (·.1) ∧ childrenOf em i = [])
    (hext2 : ∀ i ∈ em.map (·.1), childrenOf em i = [] → i ∈ extremities)
    (hextnd : extremities.Nodup) :
    KahnInv em ⟨[], extremities, em.map (fun e => (e.1, parents_count e.1))⟩ := by
  have hlk : ∀ p, lookupStr (em.map (fun e => (e.1, parents_count e.1))) p =
      if p ∈ em.map (·.1) then some (parents_count p) else none := by
    intro p
    rw [lookupStr_eq_lookupKey]
    exact lookupKey_counts_map em parents_count p
  refine ⟨?_, ?_, ?_, ?_, ?_, ?_, ?_, ?_, ?_, ?_⟩
  · exact hextnd
  · intro i hi
    simp at hi
  · intro i hi
    exact (hext1 i hi).1
  · intro i hi en hen hprev
    exfalso
    rcases hi with hi | hi
    · simp at hi
    · have hchild : en.1 ∈ childrenOf em i :=
        (mem_childrenOf em i en.1).2 ⟨en, hen, rfl, hprev⟩
      rw [(hext1 i hi).2] at hchild
      simp at hchild
  · intro l1 i l2 hsplit
    exfalso
    rcases l1 with _ | ⟨w, l1p⟩ <;> simp at hsplit
  · intro p n h
    rw [hlk p] at h
    by_cases hp : p ∈ em.map (·.1)
    · exact hp
    · rw [if_neg hp] at h
      exact absurd h (by simp)
  · intro p n h
    rw [hlk p] at h
    by_cases hp : p ∈ em.map (·.1)
    · rw [if_pos hp] at h
      obtain rfl := Option.some.inj h
      rw [unpopped_nil]
      exact hpc p hp
    · rw [if_neg hp] at h
      exact absurd h (by simp)
  · intro p n h hpos
    rw [hlk p] at h
    by_cases hp : p ∈ em.map (·.1)
    · rw [if_pos hp] at h
      obtain rfl := Option.some.inj h
      refine ⟨by simp, ?_⟩
      intro hc
      have := (hext1 p hc).2
      rw [hpc p hp, this] at hpos
      simp at hpos
    · rw [if_neg hp] at h
      exact absurd h (by simp)
  · intro p hpm _ hpz
    refine ⟨parents_count p, by rw [hlk p, if_pos hpm], ?_⟩
    rw [hpc p hpm]
    rcases hch : childrenOf em p with _ | ⟨c, cs⟩
    · exact absurd (hext2 p hpm hch) hpz
    · simp
  · have : (em.map (fun e => (e.1, parents_count e.1))).map (·.1) =
        em.map (·.1) := by
      rw [List.map_map]
      rfl
    rw [this]
    exact hemnd

/-- C9: on a DAG — witnessed by a rank function strictly decreasing from each
event to its predecessors — with duplicate-free ids and predecessor lists,
parent counts matching the recorded parent sets, and extremities exactly the
childless events, `get_ordered_fast` consumes every event (the concluding
length assertion passes and no lookup panics), and returns a permutation of
all event ids in which every event appears after each of its `prev_events`
present in the map: any split `res = l1 ++ i :: l2` puts all of `i`'s
in-map predecessors inside `l1`. -/
theorem c9_topological_order (em : EventMap) (extremities : List String)
    (parents_count : String → Nat) (rank : String → Nat)
    (hemnd : (em.map (·.1)).Nodup)
    (hprevnd : ∀ en ∈ em, en.2.prev_events.Nodup)
    (hpc : ∀ p ∈ em.map (·.1), parents_count p = (childrenOf em p).length)
    (hext1 : ∀ i ∈ extremities, i ∈ em.map (·.1) ∧ childrenOf em i = [])
    (hext2 : ∀ i ∈ em.map (·.1), childrenOf em i = [] → i ∈ extremities)
    (hextnd : extremities.Nodup)
    (hrank : ∀ en ∈ em, ∀ p ∈ en.2.prev_events, p ∈ em.map (·.1) →
      rank p < rank en.1) :
    ∃ res, get_ordered_fast em extremities parents_count = some res ∧
      res.Perm (em.map (·.1)) ∧
      (∀ l1 i l2, res = l1 ++ i :: l2 → ∀ ev, lookupStr em i = some ev →
        ∀ p ∈ ev.prev_events, p ∈ em.map (·.1) → p ∈ l1) := by
  have hinv0 := kahn_init_inv em extremities parents_count hemnd hpc
    hext1 hext2 hextnd
  have hmeas : (⟨[], extremities, em.map (fun e => (e.1, parents_count e.1))⟩ :
      KahnState).adjacents.length +
      (⟨[], extremities, em.map (fun e => (e.1, parents_count e.1))⟩ :
      KahnState).zeroes.length ≤ em.length + extremities.length := by
    show (em.map (fun e => (e.1, parents_count e.1))).length +
      extremities.length ≤ _
    rw [List.length_map]
  obtain ⟨stf, hloop, hinvf, hzf⟩ := kahn_loop_inv em hprevnd rank hemnd hrank
    (em.length + extremities.length) _ hinv0 hmeas
  have hall := kahn_all_popped em rank hrank stf hinvf hzf
  have hndord : stf.ordered.Nodup := (List.nodup_append.1 hinvf.nodup).1
  have hperm : stf.ordered.Perm (em.map (·.1)) := by
    rw [List.perm_ext_iff_of_nodup hndord hemnd]
    intro a
    exact ⟨fun h => hinvf.subOrd a h, fun h => hall a h⟩
  have hlen : stf.ordered.length = em.length := by
    rw [hperm.length_eq, List.length_map]
  refine ⟨stf.ordered, ?_, hperm, ?_⟩
  · simp only [get_ordered_fast, hloop]
    rw [if_pos hlen]
  · intro l1 i l2 hsplit ev hev p hp hpm
    have hnotin := hinvf.topo l1 i l2 hsplit ev hev p hp hpm
    have hpres : p ∈ stf.ordered := hall p hpm
    rw [hsplit] at hpres
    rcases List.mem_append.1 hpres with h | h
    · exact h
    · exact absurd h hnotin

/-- First event of the C9 witness chain (a root). -/
def c9w_e1 : Event := ⟨"@a:x", "m.x", none, "!r:x", "$1", [], none, 1, []⟩

/-- Second event of the C9 witness chain. -/
def c9w_e2 : Event := ⟨"@a:x", "m.x", none, "!r:x", "$2", ["$1"], none, 2, []⟩

/-- Third event of the C9 witness chain (the forward extremity). -/
def c9w_e3 : Event := ⟨"@a:x", "m.x", none, "!r:x", "$3", ["$2"], none, 3, []⟩

/-- The event map of the C9 witness. -/
def c9w_em : EventMap := [("$1", c9w_e1), ("$2", c9w_e2), ("$3", c9w_e3)]

/-- Parent counts of the C9 witness graph. -/
def c9w_pc : String → Nat := fun p => if p = "$3" then 0 else 1

/-- A rank function witnessing acyclicity of the C9 witness graph. -/
def c9w_rank : String → Nat :=
  fun p => if p = "$1" then 0 else if p = "$2" then 1 else 2

/-- C9, witness: the topological-order theorem applied to the concrete
three-event chain. -/
theorem c9_witness :
    ∃ res, get_ordered_fast c9w_em ["$3"] c9w_pc = some res ∧
      res.Perm (c9w_em.map (·.1)) ∧
      (∀ l1 i l2, res = l1 ++ i :: l2 → ∀ ev, lookupStr c9w_em i = some ev →
        ∀ p ∈ ev.prev_events, p ∈ c9w_em.map (·.1) → p ∈ l1) :=
  c9_topological_order c9w_em ["$3"] c9w_pc c9w_rank
    (by decide) (by decide) (by decide) (by decide) (by decide) (by decide)
    (by decide)

end RMS
